import Mathlib

/-!
Verification of the Web-to-Epub scraper core against its specification.

The development shallowly embeds the JavaScript source of the repository:

  * src/unnamed/part_000  — the Utils class (cleanText, unescapeHtml, ...)
  * src/unnamed/part_001  — the Parser class (extractChapters,
    fetchChapterContent, findLargestTextBlock, isLikelyContent,
    extractContent, resolveUrl, getSelectedChapters)
  * src/js/epub-generator.js — the EpubGenerator class (addMetadata,
    addChapters, processChapterContent, escapeXml)
  * src/WebToEpubMobileApp/assets/www/js/app.js — the WebToEpubApp class
    (fetchAllChapters, getSelectedChapters, handlePackEpub)

Strings are modelled as List Char.  Browser capabilities that the code
consumes (the DOM CSS engine behind querySelectorAll, the WHATWG URL
constructor behind new URL(href, base)) are abstracted as function
parameters, so every repository-owned computation stays concrete and
executable.
-/

namespace WebToEpub

/-! ## Character and string utilities

The JavaScript code uses the regex class \s; we model it with
Char.isWhitespace (space, tab, CR, LF), which covers every whitespace
character that occurs in the concrete inputs of this development. -/

/-- Whitespace test standing for the JavaScript regex class \s. -/
def isWs (c : Char) : Bool := c.isWhitespace

/-- Does the character list contain a non-whitespace character?
JavaScript truthiness of s.trim() is equivalent to this. -/
def hasNonWs (l : List Char) : Bool := l.any (fun c => !isWs c)

mutual
/-- Embeds the replacement .replace(/\s+/g, ' '): every maximal run of
whitespace becomes a single space. -/
def collapseWs : List Char → List Char
  | [] => []
  | c :: cs => if isWs c then ' ' :: afterWs cs else c :: collapseWs cs

/-- Helper of collapseWs: skips the rest of a whitespace run. -/
def afterWs : List Char → List Char
  | [] => []
  | c :: cs => if isWs c then afterWs cs else c :: collapseWs cs
end

/-- Drop trailing whitespace, the right half of String.prototype.trim. -/
def trimEnd : List Char → List Char
  | [] => []
  | c :: cs =>
    let r := trimEnd cs
    if r.isEmpty && isWs c then [] else c :: r

/-- Embeds String.prototype.trim: drop whitespace from both ends. -/
def jsTrim (l : List Char) : List Char := trimEnd (l.dropWhile isWs)

/-- Embeds Utils.cleanText (part_000 lines 42-49).  The source first
replaces \s+ by a single space, then replaces \n\s*\n by \n, then trims;
after the first replacement no newline remains, so the middle replacement
is vacuous and the function is collapse-then-trim. -/
def cleanText (l : List Char) : List Char := jsTrim (collapseWs l)

/-- Substring containment, embedding String.prototype.includes. -/
def containsSub (l pat : List Char) : Bool :=
  match l with
  | [] => pat.isPrefixOf []
  | _ :: cs => pat.isPrefixOf l || containsSub cs pat

/-- Lower-case every character, embedding String.prototype.toLowerCase. -/
def lowerStr (l : List Char) : List Char := l.map Char.toLower

/-! ## XML escaping and HTML entity decoding (claim C7)

EpubGenerator.escapeXml (epub-generator.js lines 387-396) applies five
global single-character replacements in sequence; Utils.unescapeHtml
(part_000 lines 330-334) parses markup with the browser and reads back
textContent, i.e. it decodes HTML entities.  The decoder below models that
browser capability on the entity alphabet escapeXml can emit. -/

/-- Replace every occurrence of one character by a replacement string:
the shape of each .replace(/X/g, "Y") pass in escapeXml, whose patterns
are all single characters. -/
def replaceChar (c : Char) (r : List Char) : List Char → List Char
  | [] => []
  | x :: xs => (if x = c then r else [x]) ++ replaceChar c r xs

/-- Embeds EpubGenerator.escapeXml: the five replacement passes in source
order (amp first, then lt, gt, quot, apos-as-decimal). -/
def escapeXml (l : List Char) : List Char :=
  replaceChar '\'' "&#39;".toList
    (replaceChar '"' "&quot;".toList
      (replaceChar '>' "&gt;".toList
        (replaceChar '<' "&lt;".toList
          (replaceChar '&' "&amp;".toList l))))

/-- Per-character form of escapeXml, used to reason about the composed
replacement passes. -/
def escChar (c : Char) : List Char :=
  if c = '&' then "&amp;".toList
  else if c = '<' then "&lt;".toList
  else if c = '>' then "&gt;".toList
  else if c = '"' then "&quot;".toList
  else if c = '\'' then "&#39;".toList
  else [c]

/-- Models Utils.unescapeHtml, the browser HTML entity decoder the source
delegates to (div.innerHTML := s; div.textContent), restricted to the
five entities escapeXml produces; any other ampersand is kept literally,
as a browser does for a bare ampersand. -/
def unescapeHtml : List Char → List Char
  | [] => []
  | c :: rest =>
    if c = '&' then
      match rest with
      | 'a' :: 'm' :: 'p' :: ';' :: r => '&' :: unescapeHtml r
      | 'l' :: 't' :: ';' :: r => '<' :: unescapeHtml r
      | 'g' :: 't' :: ';' :: r => '>' :: unescapeHtml r
      | 'q' :: 'u' :: 'o' :: 't' :: ';' :: r => '"' :: unescapeHtml r
      | '#' :: '3' :: '9' :: ';' :: r => '\'' :: unescapeHtml r
      | r => '&' :: unescapeHtml r
    else c :: unescapeHtml rest

/-! ## The extraction length guard (claim C3)

Parser.fetchChapterContent (part_001 lines 412-416) rejects an extraction
result when it is falsy or its trimmed length is below 100. -/

/-- Embeds the guard on the extracted content string:
if (!content || content.trim().length < 100) throw new Error(...). -/
def lengthGuard (content : List Char) : Except (List Char) (List Char) :=
  if content.isEmpty || (jsTrim content).length < 100 then
    .error "Extracted content is too short or empty".toList
  else
    .ok content

/-! ## URL resolution (claim C10)

Parser.resolveUrl (part_001 lines 642-648) wraps new URL(href, baseUrl)
in try/catch and falls back to the raw href.  The WHATWG URL constructor
is a browser capability; it is abstracted as a parameter
parse : String → String → Option String returning the resolved absolute
href on success and none when construction throws. -/

/-- Embeds Parser.resolveUrl: the resolved absolute URL when the pair
parses, otherwise the raw href unchanged. -/
def resolveUrl (parse : String → String → Option String)
    (href baseUrl : String) : String :=
  match parse href baseUrl with
  | some u => u
  | none => href

/-! ## Chapter discovery (claims C4, C5, C10)

The start page is modelled by the outcome of its CSS engine: a function
from selector strings to the matched anchors in document order.  Anchors
carry the href attribute (empty string standing for a missing/falsy
attribute) and the anchor text. -/

/-- An anchor element as the discovery code sees it. -/
structure Anchor where
  href : String
  text : String
deriving DecidableEq

/-- A start-page document, abstracted as its CSS query capability:
queryAll s lists the elements matching selector s in document order.
The selector "a[href]" yields every anchor carrying an href. -/
structure StartDoc where
  queryAll : String → List Anchor

/-- Site rules relevant to discovery and extraction (the shape of the
siteSpecificRules entries and of getDefaultRules, part_001 lines 17-37
and 118-151). -/
structure SiteRules where
  chapterSelectors : List String
  contentSelector : String
deriving DecidableEq

/-- Embeds getDefaultRules (part_001 lines 118-151), the fields discovery
and extraction read. -/
def defaultRules : SiteRules :=
  { chapterSelectors :=
      [".chapter-list a", ".chapters a", "a[href*=\"chapter\"]",
       ".chapter-link", ".novel-chapter a", ".story-chapter a"],
    contentSelector :=
      ".chapter-content,.entry-content,article,.post-content,.content" }

/-- Is there a digit directly after a (possibly empty) whitespace run?
Embeds the tail \s*\d+ of the chapter-token regexes. -/
def digitAfterWs (l : List Char) : Bool :=
  match l.dropWhile isWs with
  | [] => false
  | c :: _ => c.isDigit

/-- Does the regex ch\s*\d+ match at the head of the list? -/
def chWsNumAt : List Char → Bool
  | 'c' :: 'h' :: rest => digitAfterWs rest
  | _ => false

/-- Does the regex chapter\s*\d+ match at the head of the list? -/
def chapterWsNumAt : List Char → Bool
  | 'c' :: 'h' :: 'a' :: 'p' :: 't' :: 'e' :: 'r' :: rest => digitAfterWs rest
  | _ => false

/-- Does the regex ch\d+ match at the head of the list? -/
def chNumAt : List Char → Bool
  | 'c' :: 'h' :: c :: _ => c.isDigit
  | _ => false

/-- Does the regex chapter-\d+ match at the head of the list? -/
def chapterDashNumAt : List Char → Bool
  | 'c' :: 'h' :: 'a' :: 'p' :: 't' :: 'e' :: 'r' :: '-' :: c :: _ => c.isDigit
  | _ => false

/-- Does p hold at some suffix position?  This turns a match-at-head test
into an unanchored regex search. -/
def scanAny (p : List Char → Bool) : List Char → Bool
  | [] => p []
  | c :: cs => p (c :: cs) || scanAny p cs

/-- Embeds the aggressive-scan filter predicate (part_001 lines 255-267):
the anchor text is lowercased once, so the case-insensitive flags on the
text regexes are absorbed; href.includes("chapter") is case sensitive in
the source and stays so here, while the two href regexes carry /i. -/
def aggressiveMatch (a : Anchor) : Bool :=
  let t := lowerStr a.text.toList
  let h := a.href.toList
  !h.isEmpty && (
    containsSub t "chapter".toList ||
    containsSub t "ch.".toList ||
    scanAny chWsNumAt t ||
    scanAny chapterWsNumAt t ||
    containsSub h "chapter".toList ||
    scanAny chNumAt (lowerStr h) ||
    scanAny chapterDashNumAt (lowerStr h))

/-- First selector of the list that matches at least one link wins
(part_001 lines 224-249). -/
def firstSelectorHit (doc : StartDoc) : List String → List Anchor
  | [] => []
  | s :: rest =>
    let links := doc.queryAll s
    if links.isEmpty then firstSelectorHit doc rest else links

/-- Embeds the aggressive third strategy (part_001 lines 252-268). -/
def aggressiveLinks (doc : StartDoc) : List Anchor :=
  (doc.queryAll "a[href]").filter aggressiveMatch

/-- The three discovery strategies in order: site selectors, default
selectors, aggressive scan; the first that yields a non-empty list wins
(part_001 lines 216-269). -/
def discoveredLinks (doc : StartDoc) (rules : SiteRules) : List Anchor :=
  let site := firstSelectorHit doc rules.chapterSelectors
  if !site.isEmpty then site
  else
    let dflt := firstSelectorHit doc defaultRules.chapterSelectors
    if !dflt.isEmpty then dflt else aggressiveLinks doc

/-- A chapter record as created by discovery (part_001 lines 288-297). -/
structure Chapter where
  url : String
  baseUrl : String
  title : String
  index : Nat
  selected : Bool
  status : String
  content : Option String
  error : Option String
deriving DecidableEq

/-- Utils.cleanText on Lean strings. -/
def strCleanText (s : String) : String := (cleanText s.toList).asString

/-- Embeds the forEach loop over discovered links (part_001 lines
277-298): skip falsy hrefs, resolve against the base URL, deduplicate by
the resolved string through the processedUrls set, synthesize a title
from the anchor position when the cleaned text is empty.  The index
argument is the forEach position (skipped links still advance it). -/
def buildChapters (parse : String → String → Option String)
    (baseUrl : String) : Nat → List String → List Anchor → List Chapter
  | _, _, [] => []
  | i, seen, a :: rest =>
    if a.href = "" then buildChapters parse baseUrl (i + 1) seen rest
    else
      let absUrl := resolveUrl parse a.href baseUrl
      if absUrl ∈ seen then buildChapters parse baseUrl (i + 1) seen rest
      else
        { url := absUrl, baseUrl := baseUrl,
          title :=
            (if strCleanText a.text = "" then "Chapter " ++ toString (i + 1)
             else strCleanText a.text),
          index := i, selected := true, status := "pending",
          content := none, error := none }
          :: buildChapters parse baseUrl (i + 1) (absUrl :: seen) rest

/-- Longest digit run starting at the head. -/
def takeDigits : List Char → List Char
  | [] => []
  | c :: cs => if c.isDigit then c :: takeDigits cs else []

/-- First maximal digit run of the list, embedding title.match(/\d+/). -/
def firstDigitRun : List Char → Option (List Char)
  | [] => none
  | c :: cs => if c.isDigit then some (c :: takeDigits cs) else firstDigitRun cs

/-- Decimal value of a digit run, embedding parseInt on the match. -/
def digitsToNat (l : List Char) : Nat :=
  l.foldl (fun n c => 10 * n + (c.toNat - '0'.toNat)) 0

/-- The numeric key of a chapter title: the value of its first embedded
integer, when one exists. -/
def titleNumber (s : String) : Option Nat :=
  (firstDigitRun s.toList).map digitsToNat

/-- Embeds the sort comparator (part_001 lines 301-308): numeric
difference when both titles contain an integer, otherwise the difference
of the discovery indices. -/
def chapterCompare (a b : Chapter) : Int :=
  match titleNumber a.title, titleNumber b.title with
  | some m, some n => (m : Int) - n
  | _, _ => (a.index : Int) - b.index

/-- The comparator read as a should-not-come-after test. -/
def chapterLe (a b : Chapter) : Bool := chapterCompare a b ≤ 0

/-- Stable insertion of x into a sorted list: x lands before the first
element that x may precede, so elements comparing equal keep their
original relative order. -/
def orderedInsertJs (le : α → α → Bool) (x : α) : List α → List α
  | [] => [x]
  | y :: ys => if le x y then x :: y :: ys else y :: orderedInsertJs le x ys

/-- Models Array.prototype.sort with a user comparator as a stable
insertion sort.  ECMAScript requires sort to be stable, and every stable
sort agrees with this one whenever the comparator is consistent; for an
inconsistent comparator the standard leaves the order implementation
defined, and on the concrete inputs of this development the model agrees
with the binary insertion sort V8 uses for short arrays. -/
def stableSortJs (le : α → α → Bool) : List α → List α
  | [] => []
  | x :: xs => orderedInsertJs le x (stableSortJs le xs)

/-- The chapter sort of extractChapters (part_001 lines 300-308). -/
def sortChapters (l : List Chapter) : List Chapter := stableSortJs chapterLe l

/-- Embeds Parser.extractChapters end to end (part_001 lines 216-311):
strategy selection, the no-chapters failure, link processing with
dedup, and the final sort. -/
def extractChapters (parse : String → String → Option String)
    (doc : StartDoc) (baseUrl : String) (rules : SiteRules) :
    Except String (List Chapter) :=
  let links := discoveredLinks doc rules
  if links.isEmpty then .error "No chapters found on the page"
  else .ok (sortChapters (buildChapters parse baseUrl 0 [] links))

/-! ## Retry policy (claim C9)

Parser.fetchChapterContent (part_001 lines 316-441) wraps one
fetch-and-extract attempt in a while loop with maxRetries = 3; the
outcome of the k-th attempt (everything inside the try block: proxy
fetch, selector matching, extraction and the length guard) is abstracted
as outcome k. -/

/-- The retry ceiling of fetchChapterContent. -/
def maxRetries : Nat := 3

/-- What one run of fetchChapterContent leaves behind: the settled
chapter, the number of attempts made, and the backoff delays slept
between attempts (Utils.sleep(2000 * retryCount)). -/
structure RetryTrace where
  chapter : Chapter
  attempts : Nat
  delays : List Nat
deriving DecidableEq

/-- The while loop of fetchChapterContent; fuel is the remaining
iterations maxRetries - retryCount, so the loop structure is primitive
recursive. -/
def fetchLoop (outcome : Nat → Except String String) (ch : Chapter) :
    Nat → Nat → RetryTrace
  | _, 0 => ⟨ch, 0, []⟩
  | retryCount, fuel + 1 =>
    match outcome retryCount with
    | .ok content =>
      ⟨{ ch with content := some content, status := "completed" }, 1, []⟩
    | .error msg =>
      if retryCount + 1 ≥ maxRetries then
        ⟨{ ch with status := "error", error := some msg }, 1, []⟩
      else
        let r := fetchLoop outcome ch (retryCount + 1) fuel
        ⟨r.chapter, r.attempts + 1, 2000 * (retryCount + 1) :: r.delays⟩

/-- Embeds Parser.fetchChapterContent for one chapter. -/
def fetchChapterContent (outcome : Nat → Except String String)
    (ch : Chapter) : RetryTrace :=
  fetchLoop outcome ch 0 maxRetries

/-- Map with the element position, the shape of the indexed loops in
app.js and epub-generator.js. -/
def mapWithIdx (f : Nat → α → β) : Nat → List α → List β
  | _, [] => []
  | i, x :: xs => f i x :: mapWithIdx f (i + 1) xs

/-- Embeds WebToEpubApp.fetchAllChapters (app.js lines 252-287): every
chapter is processed in order inside its own try/catch, so one chapter
exhausting its retries never stops the loop. -/
def fetchAllChapters (outcomes : Nat → Nat → Except String String)
    (chs : List Chapter) : List Chapter :=
  mapWithIdx (fun i ch => (fetchChapterContent (outcomes i) ch).chapter) 0 chs

/-! ## Largest-text-block fallback (claim C2)

findLargestTextBlock (part_001 lines 447-469) only reads, per candidate
element, its tag, class, id, trimmed text length and serialized markup
length, so a page is modelled as its candidate elements in document
order carrying exactly those observations. -/

/-- An element as the fallback heuristic observes it: textLen is the
trimmed textContent length, htmlLen the innerHTML length. -/
structure PageElem where
  tag : String
  className : String
  elemId : String
  textLen : Nat
  htmlLen : Nat
deriving DecidableEq

/-- The fixed skip patterns of isLikelyContent (part_001 lines 479-482). -/
def skipPatterns : List String :=
  ["header", "footer", "sidebar", "menu", "nav", "comment",
   "advertisement", "breadcrumb", "pagination", "social"]

/-- Embeds isLikelyContent (part_001 lines 474-497): no skip pattern in
the lowercased class or id, and text density above 0.5.  The source
compares text.length / html.length > 0.5 in floating point on
non-negative integers; over the rationals that inequality is exactly
2 * textLen > htmlLen, which is how it is stated here. -/
def isLikelyContent (e : PageElem) : Bool :=
  skipPatterns.all (fun p =>
    !containsSub (lowerStr e.className.toList) p.toList &&
    !containsSub (lowerStr e.elemId.toList) p.toList) &&
  2 * e.textLen > e.htmlLen

/-- The tag list the fallback scans, in source order. -/
def contentTags : List String := ["article", "div", "section", "main"]

/-- The order in which findLargestTextBlock visits elements: all
article elements in document order, then all div, section, main
elements (getElementsByTagName per tag, tags in source order). -/
def scanOrder (doc : List PageElem) : List PageElem :=
  contentTags.flatMap (fun tg => doc.filter (fun e => e.tag = tg))

/-- One step of the maximum search: strict improvement on the running
maximum length, qualification checked first. -/
def bestStep (acc : Option PageElem × Nat) (e : PageElem) :
    Option PageElem × Nat :=
  if isLikelyContent e && acc.2 < e.textLen then (some e, e.textLen) else acc

/-- Embeds findLargestTextBlock (part_001 lines 447-469): maxLength
starts at 0 and bestElement at null, and the scan runs in tag-major
order. -/
def findLargestTextBlock (doc : List PageElem) : Option PageElem :=
  ((scanOrder doc).foldl bestStep (none, 0)).1

/-- Keep the longer candidate, first-seen winning ties: the selection
rule the claim words describe, applied over some visit order. -/
def pickBest (acc : Option PageElem) (e : PageElem) : Option PageElem :=
  match acc with
  | none => some e
  | some b => if b.textLen < e.textLen then some e else acc

/-- Selection following the words of claim C2 and the spec: among every
qualifying element, the longest trimmed text wins and ties resolve to
the first encountered in document order. -/
def claimSelectBest (doc : List PageElem) : Option PageElem :=
  (doc.filter (fun e => contentTags.contains e.tag && isLikelyContent e)).foldl
    pickBest none

/-- The amended selection: identical to claimSelectBest except that ties
resolve to the first element in the tag-major scan order that the code
actually visits. -/
def scanSelectBest (doc : List PageElem) : Option PageElem :=
  ((scanOrder doc).filter isLikelyContent).foldl pickBest none

/-! ## Container assembly (claims C1, C6, C7)

EpubGenerator.addMetadata (epub-generator.js lines 82-194) and
addChapters (lines 199-229) build the package document, the navigation
document and one XHTML document per chapter by string templating; the
model records the same data structurally, entry for entry, in the order
the template loops emit them. -/

/-- The metadata record generateEpub consumes. -/
structure MetaInfo where
  title : String
  author : String
  language : String
  description : String
  subject : String
  coverImageUrl : String
deriving DecidableEq

/-- escapeXml on Lean strings. -/
def escapeXmlS (s : String) : String := (escapeXml s.toList).asString

/-- unescapeHtml on Lean strings. -/
def unescapeHtmlS (s : String) : String := (unescapeHtml s.toList).asString

/-- One manifest item element of content.opf. -/
structure ManifestItem where
  itemId : String
  href : String
  mediaType : String
deriving DecidableEq

/-- One navPoint element of toc.ncx. -/
structure NavPoint where
  navId : String
  playOrder : Nat
  label : String
  src : String
deriving DecidableEq

/-- The content.opf package document as addMetadata fills it. -/
structure PackageOpf where
  identifier : String
  title : String
  creator : String
  language : String
  description : String
  subject : String
  manifest : List ManifestItem
  spine : List String
deriving DecidableEq

/-- The toc.ncx navigation document as addMetadata fills it. -/
structure TocNcx where
  uid : String
  docTitle : String
  navMap : List NavPoint
deriving DecidableEq

/-- One per-chapter XHTML document as addChapters emits it: the title
and h1 heading hold the escaped chapter title, the body holds the
chapter content fed to processChapterContent. -/
structure ChapterXhtml where
  path : String
  docTitle : String
  heading : String
  content : Option String
deriving DecidableEq

/-- Embeds the content.opf construction of addMetadata (epub-generator.js
lines 87-116): metadata fields XML-escaped, fixed ncx and css items, an
optional cover item, one manifest item and one spine itemref per passed
chapter, in passed order. -/
def addMetadataOpf (m : MetaInfo) (identifier : String)
    (chapters : List Chapter) : PackageOpf :=
  { identifier := identifier,
    title := escapeXmlS m.title,
    creator := escapeXmlS m.author,
    language := m.language,
    description := escapeXmlS m.description,
    subject := escapeXmlS m.subject,
    manifest :=
      ⟨"ncx", "toc.ncx", "application/x-dtbncx+xml"⟩ ::
      ⟨"css", "style.css", "text/css"⟩ ::
      ((if m.coverImageUrl ≠ "" then
          [⟨"cover-image", "cover.jpg", "image/jpeg"⟩] else []) ++
        mapWithIdx (fun i _ =>
          ⟨"chapter-" ++ toString (i + 1),
           "chapter-" ++ toString (i + 1) ++ ".xhtml",
           "application/xhtml+xml"⟩) 0 chapters),
    spine := mapWithIdx (fun i _ => "chapter-" ++ toString (i + 1)) 0 chapters }

/-- Embeds the toc.ncx construction of addMetadata (epub-generator.js
lines 119-141): one navPoint per passed chapter with
playOrder = index + 1 and src = chapter-(index+1).xhtml. -/
def addMetadataNcx (m : MetaInfo) (identifier : String)
    (chapters : List Chapter) : TocNcx :=
  { uid := identifier,
    docTitle := escapeXmlS m.title,
    navMap := mapWithIdx (fun i ch =>
      ⟨"nav-" ++ toString (i + 1), i + 1, escapeXmlS ch.title,
       "chapter-" ++ toString (i + 1) ++ ".xhtml"⟩) 0 chapters }

/-- Embeds addChapters (epub-generator.js lines 199-229): one XHTML file
OEBPS/chapter-(i+1).xhtml per chapter, in order. -/
def addChaptersDocs (chapters : List Chapter) : List ChapterXhtml :=
  mapWithIdx (fun i ch =>
    ⟨"OEBPS/chapter-" ++ toString (i + 1) ++ ".xhtml",
     escapeXmlS ch.title, escapeXmlS ch.title, ch.content⟩) 0 chapters

/-- The assembled container. -/
structure EpubBook where
  opf : PackageOpf
  ncx : TocNcx
  docs : List ChapterXhtml
deriving DecidableEq

/-- Embeds generateEpub (epub-generator.js lines 14-56): fails when the
chapter list is empty, otherwise assembles the three document groups.
The cover embedding attempt is non-fatal in the source and does not
change any of the modelled entries. -/
def generateEpub (m : MetaInfo) (identifier : String)
    (chapters : List Chapter) : Except String EpubBook :=
  if chapters.isEmpty then .error "No chapters to generate EPUB from"
  else
    .ok ⟨addMetadataOpf m identifier chapters,
         addMetadataNcx m identifier chapters,
         addChaptersDocs chapters⟩

/-- Embeds WebToEpubApp.getSelectedChapters (app.js lines 356-367): the
checkbox state is the inclusion flag of the chapter record, and only
chapters whose status settled at completed are packed. -/
def getSelectedChapters (chapters : List Chapter) : List Chapter :=
  chapters.filter (fun ch => ch.selected && ch.status == "completed")

/-- The conversion pipeline as the app wires it: discovery, per-chapter
fetch with retries, selection, packing.  A discovery failure propagates
and no container is produced (handleLoadAndAnalyze catches the parser
error and never reaches packing). -/
def convertRun (parse : String → String → Option String) (doc : StartDoc)
    (baseUrl : String) (rules : SiteRules)
    (outcomes : Nat → Nat → Except String String)
    (m : MetaInfo) (identifier : String) : Except String EpubBook :=
  match extractChapters parse doc baseUrl rules with
  | .error e => .error e
  | .ok chs =>
    generateEpub m identifier (getSelectedChapters (fetchAllChapters outcomes chs))

/-! ## The Content Normalizer on DOM fragments (claim C8)

extractContent (part_001 lines 502-563) walks and rewrites a DOM
subtree.  A fragment is modelled in first-child/next-sibling form: a Dom
value is a whole sibling list, so every rewrite of the source maps to a
structural recursion.  Element tags are stored lowercase, as the HTML
DOM reports them to selectors.  The normalizer below is the Content
Normalizer of spec section 4.2: the five rewrites of extractContent in
source order, followed by the image-src resolution step that
processChapterContent (epub-generator.js lines 280-289) performs. -/

/-- A DOM fragment: nil ends a sibling list, an element carries tag,
class, id, src attributes plus its first-child forest and the rest of
its sibling list, a text node carries its data. -/
inductive Dom where
  | nil : Dom
  | elemN (tag className elemId src : String) (children sibs : Dom) : Dom
  | textN (s : String) (sibs : Dom) : Dom
deriving DecidableEq

/-- The tag names of the deny list shared by extractContent and
processChapterContent. -/
def denyTags : List String :=
  ["script", "style", "iframe", "form", "button", "input"]

/-- Does the class attribute contain the token as one of its
whitespace-separated words?  This is how a CSS class selector such as
.advertisement matches. -/
def classHasToken (cls tok : List Char) : Bool :=
  ((cls.splitOnP isWs).filter (fun w => !w.isEmpty)).contains tok

/-- Embeds the unwantedSelectors test of extractContent (part_001 lines
509-515): the six deny tags, four class selectors, and the six
substring attribute selectors on id and class. -/
def isUnwanted (tag cls idA : String) : Bool :=
  denyTags.contains tag ||
  classHasToken cls.toList "advertisement".toList ||
  classHasToken cls.toList "ads".toList ||
  classHasToken cls.toList "social-share".toList ||
  classHasToken cls.toList "comments".toList ||
  containsSub idA.toList "google".toList ||
  containsSub cls.toList "google".toList ||
  containsSub idA.toList "ad-".toList ||
  containsSub cls.toList "ad-".toList ||
  containsSub idA.toList "share".toList ||
  containsSub cls.toList "share".toList

/-- Step 1 of the normalizer: remove every element matching the deny
list, with its whole subtree. -/
def rmUnwanted : Dom → Dom
  | .nil => .nil
  | .elemN t c i s ch sb =>
    if isUnwanted t c i then rmUnwanted sb
    else .elemN t c i s (rmUnwanted ch) (rmUnwanted sb)
  | .textN s sb => .textN s (rmUnwanted sb)

/-- Whitespace normalisation of one text node, embedding
node.textContent.replace(/\s+/g, ' ').trim() of the tree walker. -/
def collapseTrim (l : List Char) : List Char := jsTrim (collapseWs l)

/-- Step 2 of the normalizer: normalise every text node in place (the
node stays even when its text becomes empty, as in the DOM). -/
def cleanTexts : Dom → Dom
  | .nil => .nil
  | .elemN t c i s ch sb => .elemN t c i s (cleanTexts ch) (cleanTexts sb)
  | .textN s sb => .textN (collapseTrim s.toList).asString (cleanTexts sb)

/-- Does the fragment contain an element whose tag is in the list?
querySelector over descendants reduces to this on tag selectors. -/
def hasTagIn (tags : List String) : Dom → Bool
  | .nil => false
  | .elemN t _ _ _ ch sb => tags.contains t || hasTagIn tags ch || hasTagIn tags sb
  | .textN _ sb => hasTagIn tags sb

/-- The tags that block a div-to-paragraph reclassification
(div.querySelector("div, p, img, table")). -/
def blockingTags : List String := ["div", "p", "img", "table"]

/-- Step 3 of the normalizer (part_001 lines 537-543): a div with no
div, p, img or table descendant becomes a p.  The replacement p is
created fresh, so it carries no class, id or src; reclassification does
not change which tags are in the blocking set, so evaluating the guard
before or after rewriting the children is equivalent and the source
iteration order is immaterial. -/
def divToP : Dom → Dom
  | .nil => .nil
  | .elemN t c i s ch sb =>
    if t = "div" && !hasTagIn blockingTags ch then
      .elemN "p" "" "" "" (divToP ch) (divToP sb)
    else .elemN t c i s (divToP ch) (divToP sb)
  | .textN s sb => .textN s (divToP sb)

/-- Step 4 of the normalizer (part_001 lines 546-553): wrap every
top-level text node with non-empty trimmed text in a fresh p holding
the trimmed text; only the root sibling list is visited. -/
def wrapTopText : Dom → Dom
  | .nil => .nil
  | .elemN t c i s ch sb => .elemN t c i s ch (wrapTopText sb)
  | .textN s sb =>
    if (jsTrim s.toList).isEmpty then .textN s (wrapTopText sb)
    else .elemN "p" "" "" "" (.textN (jsTrim s.toList).asString .nil) (wrapTopText sb)

/-- Concatenated text of a fragment, embedding textContent. -/
def textContentDom : Dom → List Char
  | .nil => []
  | .elemN _ _ _ _ ch sb => textContentDom ch ++ textContentDom sb
  | .textN s sb => s.toList ++ textContentDom sb

/-- Step 5 of the normalizer (part_001 lines 556-560): remove every
element whose subtree holds no non-whitespace text and no img
descendant.  The source evaluates the condition on a static, parents
first node list, which is equivalent to this recursion; querySelector
searches strict descendants only, hence the children forest in both
tests (so an img element itself, having neither text nor an img
descendant, satisfies the removal condition, exactly as in the code). -/
def removeEmpty : Dom → Dom
  | .nil => .nil
  | .elemN t c i s ch sb =>
    if (jsTrim (textContentDom ch)).isEmpty && !hasTagIn ["img"] ch then
      removeEmpty sb
    else .elemN t c i s (removeEmpty ch) (removeEmpty sb)
  | .textN s sb => .textN s (removeEmpty sb)

/-- Step 6 of the normalizer (epub-generator.js lines 280-289): resolve
each img src against the base; a falsy src is left alone, an
unresolvable one removes the img element. -/
def resolveImgs (parse : String → String → Option String) (base : String) :
    Dom → Dom
  | .nil => .nil
  | .elemN t c i s ch sb =>
    if t = "img" then
      if s = "" then
        .elemN t c i s (resolveImgs parse base ch) (resolveImgs parse base sb)
      else
        match parse s base with
        | some u => .elemN t c i u (resolveImgs parse base ch) (resolveImgs parse base sb)
        | none => resolveImgs parse base sb
    else .elemN t c i s (resolveImgs parse base ch) (resolveImgs parse base sb)
  | .textN s sb => .textN s (resolveImgs parse base sb)

/-- The Content Normalizer of spec section 4.2: deny-list removal,
whitespace collapse, div-to-paragraph reclassification, bare-text
wrapping, empty-element removal, image src resolution, in that order. -/
def normalizeDom (parse : String → String → Option String) (base : String)
    (d : Dom) : Dom :=
  resolveImgs parse base (removeEmpty (wrapTopText (divToP (cleanTexts (rmUnwanted d)))))

/-- No element of the fragment carries the given tag. -/
def noTag (tg : String) (d : Dom) : Bool := !hasTagIn [tg] d

/-! ## Normal forms

Auxiliary predicates used to reason about the fixed points of the
whitespace pass and of the normalizer. -/

/-- Is the head, when present, a non-whitespace character? -/
def headNotWs : List Char → Bool
  | [] => true
  | c :: _ => !isWs c

/-- Is the last character, when present, non-whitespace? -/
def lastNotWs : List Char → Bool
  | [] => true
  | [c] => !isWs c
  | _ :: c :: cs => lastNotWs (c :: cs)

/-- Every whitespace character is a single space not followed by
whitespace: the shape collapseWs produces. -/
def wsClean : List Char → Bool
  | [] => true
  | c :: cs => (if isWs c then c = ' ' && headNotWs cs else true) && wsClean cs

/-- Every text node of the fragment is a fixed point of the whitespace
pass. -/
def textsNormal : Dom → Bool
  | .nil => true
  | .elemN _ _ _ _ ch sb => textsNormal ch && textsNormal sb
  | .textN s sb => decide (collapseTrim s.toList = s.toList) && textsNormal sb

/-- No element of the fragment matches the deny list. -/
def noDenied : Dom → Bool
  | .nil => true
  | .elemN t c i _ ch sb => !isUnwanted t c i && noDenied ch && noDenied sb
  | .textN _ sb => noDenied sb

/-- Every top-level text node of the fragment has empty trimmed text. -/
def topTextsEmpty : Dom → Bool
  | .nil => true
  | .elemN _ _ _ _ _ sb => topTextsEmpty sb
  | .textN s sb => (jsTrim s.toList).isEmpty && topTextsEmpty sb

/-- Every element of the fragment has non-empty trimmed text content. -/
def elemsNonempty : Dom → Bool
  | .nil => true
  | .elemN _ _ _ _ ch sb =>
    !(jsTrim (textContentDom ch)).isEmpty && elemsNonempty ch && elemsNonempty sb
  | .textN _ sb => elemsNonempty sb

/-! ## Claim-level specification definitions and concrete inputs -/

/-- A URL parser that always fails, for concrete runs that exercise the
fallback paths. -/
def noParse : String → String → Option String := fun _ _ => none

/-- The ordering requirement claim C4 states for one pair of chapters:
titles that both contain an integer compare numerically, every other
pair keeps its discovery order. -/
def claimPairOk (a b : Chapter) : Bool :=
  match titleNumber a.title, titleNumber b.title with
  | some m, some n => m ≤ n
  | _, _ => a.index ≤ b.index

/-- The whole-list ordering property claim C4 states for the discovery
output. -/
def chapterOrderClaim (out : List Chapter) : Prop :=
  out.Pairwise (fun a b => claimPairOk a b = true)

/-- Start page for the C4 counterexample: three anchors found by the
aggressive scan, titled Chapter 2, chapter x, Chapter 1 in document
order. -/
def c4Doc : StartDoc :=
  ⟨fun s => if s = "a[href]" then
      [⟨"u2", "Chapter 2"⟩, ⟨"u3", "chapter x"⟩, ⟨"u1", "Chapter 1"⟩]
    else []⟩

/-- The chapter list extractChapters produces from c4Doc: the comparator
never swaps across the non-numeric middle title, so the numeric pair
(2, 1) stays in DOM order. -/
def c4Out : List Chapter :=
  [⟨"u2", "base", "Chapter 2", 0, true, "pending", none, none⟩,
   ⟨"u3", "base", "chapter x", 1, true, "pending", none, none⟩,
   ⟨"u1", "base", "Chapter 1", 2, true, "pending", none, none⟩]

/-- The scenario input of claim C4: anchors Chapter 2, Chapter 1,
Chapter 10 in DOM order. -/
def c4ScenarioDoc : StartDoc :=
  ⟨fun s => if s = "a[href]" then
      [⟨"u2", "Chapter 2"⟩, ⟨"u1", "Chapter 1"⟩, ⟨"u10", "Chapter 10"⟩]
    else []⟩

/-- The numeric key the amended C4 statement sorts by. -/
def titleKey (c : Chapter) : Nat := (titleNumber c.title).getD 0

/-- The chapter list discovery builds from c4ScenarioDoc before
sorting. -/
def c4ScenChs : List Chapter :=
  [⟨"u2", "base", "Chapter 2", 0, true, "pending", none, none⟩,
   ⟨"u1", "base", "Chapter 1", 1, true, "pending", none, none⟩,
   ⟨"u10", "base", "Chapter 10", 2, true, "pending", none, none⟩]

/-- The sorted scenario output: numeric order 1, 2, 10. -/
def c4ScenSorted : List Chapter :=
  [⟨"u1", "base", "Chapter 1", 1, true, "pending", none, none⟩,
   ⟨"u2", "base", "Chapter 2", 0, true, "pending", none, none⟩,
   ⟨"u10", "base", "Chapter 10", 2, true, "pending", none, none⟩]

/-- Candidates for the C2 counterexample: a section and a div with equal
trimmed text length 500 and density 500/600, the section first in
document order. -/
def c2Sec : PageElem := ⟨"section", "", "", 500, 600⟩

/-- The div candidate of the C2 counterexample. -/
def c2Div : PageElem := ⟨"div", "", "", 500, 600⟩

/-- The C2 counterexample document, section before div. -/
def c2Doc : List PageElem := [c2Sec, c2Div]

/-- The scenario elements of claim C2: a div of density 500/800 = 0.625
and text length 500 against a longer div of density 600/1500 = 0.4. -/
def c2ScenA : PageElem := ⟨"div", "", "", 500, 800⟩

/-- The low-density scenario candidate of claim C2. -/
def c2ScenB : PageElem := ⟨"div", "", "", 600, 1500⟩

/-- The C2 scenario document. -/
def c2ScenDoc : List PageElem := [c2ScenB, c2ScenA]

/-- The C8 counterexample fragment div(div(), "hello"): the inner empty
div blocks reclassification of the outer div on the first pass and is
removed by the empty-element pass, so the second pass reclassifies. -/
def c8Frag : Dom :=
  .elemN "div" "" "" ""
    (.elemN "div" "" "" "" .nil (.textN "hello" .nil)) .nil

/-- A div-free, img-free fragment witnessing the amended C8 claim. -/
def c8CleanFrag : Dom :=
  .elemN "section" "story" "" ""
    (.elemN "p" "" "" "" (.textN "hello world" .nil)
      (.textN " " (.elemN "p" "" "" "" (.textN "more text" .nil) .nil))) .nil

/-! ## Supporting lemmas -/

theorem replaceChar_append (c : Char) (r : List Char) (a b : List Char) :
    replaceChar c r (a ++ b) = replaceChar c r a ++ replaceChar c r b := by
  induction a with
  | nil => simp [replaceChar]
  | cons x xs ih => simp [replaceChar, ih]

theorem escapeXml_cons (x : Char) (xs : List Char) :
    escapeXml (x :: xs) = escChar x ++ escapeXml xs := by
  by_cases h1 : x = '&'
  · subst h1
    show escapeXml ('&' :: xs) = "&amp;".toList ++ escapeXml xs
    simp only [escapeXml, replaceChar, if_pos rfl, replaceChar_append]
    rfl
  by_cases h2 : x = '<'
  · subst h2
    show escapeXml ('<' :: xs) = "&lt;".toList ++ escapeXml xs
    simp only [escapeXml, replaceChar, replaceChar_append, if_neg, h1,
      if_pos rfl, reduceIte]
    rfl
  by_cases h3 : x = '>'
  · subst h3
    show escapeXml ('>' :: xs) = "&gt;".toList ++ escapeXml xs
    simp only [escapeXml, replaceChar, replaceChar_append, if_neg, h1, h2,
      if_pos rfl, reduceIte]
    rfl
  by_cases h4 : x = '"'
  · subst h4
    show escapeXml ('"' :: xs) = "&quot;".toList ++ escapeXml xs
    simp only [escapeXml, replaceChar, replaceChar_append, if_neg, h1, h2, h3,
      if_pos rfl, reduceIte]
    rfl
  by_cases h5 : x = '\''
  · subst h5
    show escapeXml ('\'' :: xs) = "&#39;".toList ++ escapeXml xs
    simp only [escapeXml, replaceChar, replaceChar_append, if_neg, h1, h2, h3,
      h4, if_pos rfl, reduceIte]
    rfl
  · have he : escChar x = [x] := by simp [escChar, h1, h2, h3, h4, h5]
    rw [he]
    simp [escapeXml, replaceChar, h1, h2, h3, h4, h5]

theorem unescape_escChar (x : Char) (l : List Char) :
    unescapeHtml (escChar x ++ l) = x :: unescapeHtml l := by
  by_cases h1 : x = '&'
  · subst h1; rfl
  by_cases h2 : x = '<'
  · subst h2; rfl
  by_cases h3 : x = '>'
  · subst h3; rfl
  by_cases h4 : x = '"'
  · subst h4; rfl
  by_cases h5 : x = '\''
  · subst h5; rfl
  · have he : escChar x = [x] := by simp [escChar, h1, h2, h3, h4, h5]
    rw [he]
    show unescapeHtml (x :: l) = x :: unescapeHtml l
    unfold unescapeHtml
    rw [if_neg h1]
    rw [← unescapeHtml.eq_def]

theorem unescape_escape (l : List Char) : unescapeHtml (escapeXml l) = l := by
  induction l with
  | nil => rfl
  | cons x xs ih => rw [escapeXml_cons, unescape_escChar, ih]

/-! ## Claim C3 -/

set_option maxRecDepth 8000 in
/-- Claim C3: the extraction guard rejects a body with ContentTooShort
exactly when its trimmed length is below 100 characters; a body of
exactly 100 trimmed characters passes and one of 99 fails. -/
theorem c3_length_guard :
    ∀ content : List Char,
      (lengthGuard content = .error "Extracted content is too short or empty".toList
        ↔ (jsTrim content).length < 100) ∧
      lengthGuard (List.replicate 100 'a') = .ok (List.replicate 100 'a') ∧
      lengthGuard (List.replicate 99 'a')
        = .error "Extracted content is too short or empty".toList := by
  intro content
  refine ⟨?_, by rfl, by rfl⟩
  constructor
  · intro h
    by_cases he : content.isEmpty
    · have : content = [] := by simpa using he
      subst this; decide
    · by_cases hl : (jsTrim content).length < 100
      · exact hl
      · exfalso
        simp [lengthGuard, he, hl] at h
  · intro hl
    simp [lengthGuard, hl]

theorem mapWithIdx_length (f : Nat → α → β) :
    ∀ (n : Nat) (l : List α), (mapWithIdx f n l).length = l.length := by
  intro n l
  induction l generalizing n with
  | nil => rfl
  | cons x xs ih => simp [mapWithIdx, ih]

theorem mapWithIdx_map (f : Nat → α → β) (g : β → γ) :
    ∀ (n : Nat) (l : List α),
      (mapWithIdx f n l).map g = mapWithIdx (fun i a => g (f i a)) n l := by
  intro n l
  induction l generalizing n with
  | nil => rfl
  | cons x xs ih => simp [mapWithIdx, ih]

theorem mapWithIdx_const (e : α → β) :
    ∀ (n : Nat) (l : List α), mapWithIdx (fun _ a => e a) n l = l.map e := by
  intro n l
  induction l generalizing n with
  | nil => rfl
  | cons x xs ih => simp [mapWithIdx, ih]

theorem mapWithIdx_getElem? (f : Nat → α → β) :
    ∀ (n : Nat) (l : List α) (i : Nat),
      (mapWithIdx f n l)[i]? = (l[i]?).map (f (n + i)) := by
  intro n l
  induction l generalizing n with
  | nil => intro i; simp [mapWithIdx]
  | cons x xs ih =>
    intro i
    cases i with
    | zero => simp [mapWithIdx]
    | succ j =>
      simp only [mapWithIdx, List.getElem?_cons_succ, ih (n + 1) j]
      have : n + 1 + j = n + (j + 1) := by omega
      rw [this]

theorem mapWithIdx_idx (h : Nat → β) :
    ∀ (n : Nat) (l : List α),
      mapWithIdx (fun i _ => h i) n l = (List.range l.length).map (fun k => h (n + k)) := by
  intro n l
  apply List.ext_getElem?
  intro i
  rw [mapWithIdx_getElem?, List.getElem?_map]
  by_cases hi : i < l.length
  · rw [List.getElem?_range hi, List.getElem?_eq_getElem hi]
    rfl
  · have h1 : l[i]? = none := List.getElem?_eq_none (le_of_not_lt hi)
    have h2 : (List.range l.length)[i]? = none := by
      rw [List.getElem?_eq_none]
      simpa using le_of_not_lt hi
    rw [h1, h2]
    rfl

theorem mapWithIdx_mem (f : Nat → α → β) :
    ∀ (n : Nat) (l : List α) (b : β),
      b ∈ mapWithIdx f n l → ∃ i a, a ∈ l ∧ b = f i a := by
  intro n l
  induction l generalizing n with
  | nil => intro b hb; simp [mapWithIdx] at hb
  | cons x xs ih =>
    intro b hb
    simp only [mapWithIdx, List.mem_cons] at hb
    rcases hb with hb | hb
    · exact ⟨n, x, List.mem_cons_self x xs, hb⟩
    · obtain ⟨i, a, ha, he⟩ := ih (n + 1) b hb
      exact ⟨i, a, List.mem_cons_of_mem x ha, he⟩

theorem strAppend_assoc (a b c : String) : a ++ b ++ c = a ++ (b ++ c) := by
  apply String.ext
  simp [String.data_append]

/-! ## Claim C1 -/

/-- Claim C1: the assembled spine lists exactly the passed chapters in
passed order (entry i is the itemref chapter-(i+1)), and the navigation
document lists the chapters in that same spine order, each navPoint
carrying playOrder equal to its 1-based position, the corresponding
spine target as src, and the escaped chapter title as label; the emitted
chapter documents line up with the spine entry for entry. -/
theorem c1_spine_navigation :
    ∀ (m : MetaInfo) (ident : String) (chs : List Chapter),
      (addMetadataOpf m ident chs).spine
        = (List.range chs.length).map (fun i => "chapter-" ++ toString (i + 1)) ∧
      (addMetadataNcx m ident chs).navMap.map NavPoint.playOrder
        = (List.range chs.length).map (fun i => i + 1) ∧
      (addMetadataNcx m ident chs).navMap.map NavPoint.src
        = (addMetadataOpf m ident chs).spine.map (fun s => s ++ ".xhtml") ∧
      (addMetadataNcx m ident chs).navMap.map NavPoint.label
        = chs.map (fun c => escapeXmlS c.title) ∧
      (addChaptersDocs chs).map ChapterXhtml.path
        = (addMetadataOpf m ident chs).spine.map (fun s => "OEBPS/" ++ (s ++ ".xhtml")) ∧
      (addChaptersDocs chs).map ChapterXhtml.content = chs.map Chapter.content := by
  intro m ident chs
  refine ⟨?_, ?_, ?_, ?_, ?_, ?_⟩
  · simp [addMetadataOpf, mapWithIdx_idx]
  · simp [addMetadataNcx, mapWithIdx_map, mapWithIdx_idx]
  · simp only [addMetadataNcx, addMetadataOpf, mapWithIdx_map, List.map_map,
      mapWithIdx_idx]
    apply List.map_congr_left
    intro k _
    simp [strAppend_assoc]
  · simp [addMetadataNcx, mapWithIdx_map, mapWithIdx_const]
  · simp only [addChaptersDocs, addMetadataOpf, mapWithIdx_map, List.map_map,
      mapWithIdx_idx]
    apply List.map_congr_left
    intro k _
    apply String.ext
    simp [String.data_append]
  · simp [addChaptersDocs, mapWithIdx_map, mapWithIdx_const]

/-! ## Claim C6 -/

/-- Claim C6: a chapter whose inclusion flag is false or whose status is
not completed is omitted from the selection the assembler receives, and
every assembled structure (spine, chapter manifest items, navigation,
chapter documents) is generated one entry per selected chapter only, so
no placeholder for an excluded chapter exists anywhere. -/
theorem c6_excluded_chapters :
    ∀ (chs : List Chapter) (m : MetaInfo) (ident : String),
      (∀ c ∈ chs, (c.selected = false ∨ c.status ≠ "completed") →
        c ∉ getSelectedChapters chs) ∧
      (∀ c ∈ getSelectedChapters chs, c.selected = true ∧ c.status = "completed") ∧
      (addMetadataOpf m ident (getSelectedChapters chs)).spine.length
        = (getSelectedChapters chs).length ∧
      ((addMetadataOpf m ident (getSelectedChapters chs)).manifest.filter
          (fun it => it.mediaType == "application/xhtml+xml")).length
        = (getSelectedChapters chs).length ∧
      (addMetadataNcx m ident (getSelectedChapters chs)).navMap.map NavPoint.label
        = (getSelectedChapters chs).map (fun c => escapeXmlS c.title) ∧
      (addChaptersDocs (getSelectedChapters chs)).map ChapterXhtml.content
        = (getSelectedChapters chs).map Chapter.content := by
  intro chs m ident
  refine ⟨?_, ?_, ?_, ?_, ?_, ?_⟩
  · intro c hc hex hmem
    simp only [getSelectedChapters, List.mem_filter, Bool.and_eq_true,
      beq_iff_eq] at hmem
    rcases hex with hex | hex
    · rw [hmem.2.1] at hex; cases hex
    · exact hex hmem.2.2
  · intro c hmem
    simp only [getSelectedChapters, List.mem_filter, Bool.and_eq_true,
      beq_iff_eq] at hmem
    exact ⟨hmem.2.1, hmem.2.2⟩
  · simp [addMetadataOpf, mapWithIdx_length]
  · have hfilter : ∀ (l : List Chapter) (n : Nat),
        (mapWithIdx (fun i (_ : Chapter) =>
          (⟨"chapter-" ++ toString (i + 1),
            "chapter-" ++ toString (i + 1) ++ ".xhtml",
            "application/xhtml+xml"⟩ : ManifestItem)) n l).filter
          (fun it => it.mediaType == "application/xhtml+xml")
        = mapWithIdx (fun i (_ : Chapter) =>
            (⟨"chapter-" ++ toString (i + 1),
              "chapter-" ++ toString (i + 1) ++ ".xhtml",
              "application/xhtml+xml"⟩ : ManifestItem)) n l := by
      intro l
      induction l with
      | nil => intro n; rfl
      | cons x xs ih => intro n; simp [mapWithIdx, List.filter, ih]
    by_cases hcov : m.coverImageUrl ≠ ""
    · simp [addMetadataOpf, hcov, List.filter, hfilter, mapWithIdx_length]
    · simp [addMetadataOpf, hcov, List.filter, hfilter, mapWithIdx_length]
  · simp [addMetadataNcx, mapWithIdx_map, mapWithIdx_const]
  · simp [addChaptersDocs, mapWithIdx_map, mapWithIdx_const]

/-! ## Claim C7 -/

/-- Claim C7: user-supplied title and author fields appear in the
package document with the five XML special characters escaped, and
decoding the escaped form with the HTML entity decoder returns exactly
the original string: escape followed by decode is the identity on every
string. -/
theorem c7_escape_roundtrip :
    ∀ (m : MetaInfo) (ident : String) (chs : List Chapter),
      (addMetadataOpf m ident chs).title = escapeXmlS m.title ∧
      (addMetadataOpf m ident chs).creator = escapeXmlS m.author ∧
      (addMetadataOpf m ident chs).description = escapeXmlS m.description ∧
      unescapeHtmlS (escapeXmlS m.title) = m.title ∧
      unescapeHtmlS (escapeXmlS m.author) = m.author ∧
      ∀ s : String, unescapeHtmlS (escapeXmlS s) = s := by
  intro m ident chs
  have hall : ∀ s : String, unescapeHtmlS (escapeXmlS s) = s := by
    intro s
    show (unescapeHtml ((escapeXml s.toList).asString).toList).asString = s
    have h : ((escapeXml s.toList).asString).toList = escapeXml s.toList := rfl
    rw [h, unescape_escape]
    cases s
    rfl
  exact ⟨rfl, rfl, rfl, hall m.title, hall m.author, hall⟩

theorem firstSelectorHit_eq_nil (doc : StartDoc) :
    ∀ sels : List String,
      firstSelectorHit doc sels = [] ↔ ∀ s ∈ sels, doc.queryAll s = [] := by
  intro sels
  induction sels with
  | nil => simp [firstSelectorHit]
  | cons s rest ih =>
    simp only [firstSelectorHit]
    by_cases h : (doc.queryAll s).isEmpty
    · have hq : doc.queryAll s = [] := by simpa using h
      simp [h, ih, hq]
    · have hq : doc.queryAll s ≠ [] := by simpa using h
      simp [h, hq]

/-! ## Claim C5 -/

/-- Claim C5: discovery fails with the no-chapters error exactly when
the site selectors, the default selectors and the aggressive scan all
yield zero links, and that failure aborts the conversion with no
container produced. -/
theorem c5_no_chapters_found :
    ∀ (parse : String → String → Option String) (doc : StartDoc)
      (baseUrl : String) (rules : SiteRules)
      (outcomes : Nat → Nat → Except String String) (m : MetaInfo) (ident : String),
      (extractChapters parse doc baseUrl rules = .error "No chapters found on the page"
        ↔ ((∀ s ∈ rules.chapterSelectors, doc.queryAll s = []) ∧
           (∀ s ∈ defaultRules.chapterSelectors, doc.queryAll s = []) ∧
           aggressiveLinks doc = [])) ∧
      (extractChapters parse doc baseUrl rules = .error "No chapters found on the page" →
        convertRun parse doc baseUrl rules outcomes m ident
          = .error "No chapters found on the page") := by
  intro parse doc baseUrl rules outcomes m ident
  constructor
  · rw [← firstSelectorHit_eq_nil, ← firstSelectorHit_eq_nil]
    unfold extractChapters discoveredLinks
    by_cases hs : (firstSelectorHit doc rules.chapterSelectors).isEmpty
    · have hs' : firstSelectorHit doc rules.chapterSelectors = [] := by simpa using hs
      by_cases hd : (firstSelectorHit doc defaultRules.chapterSelectors).isEmpty
      · have hd' : firstSelectorHit doc defaultRules.chapterSelectors = [] := by
          simpa using hd
        by_cases ha : (aggressiveLinks doc).isEmpty
        · have ha' : aggressiveLinks doc = [] := by simpa using ha
          simp [hs, hd, hs', hd', ha, ha']
        · have ha' : aggressiveLinks doc ≠ [] := by simpa using ha
          simp [hs, hd, hs', hd', ha, ha']
      · have hd' : firstSelectorHit doc defaultRules.chapterSelectors ≠ [] := by
          simpa using hd
        simp [hs, hd, hs', hd']
    · have hs' : firstSelectorHit doc rules.chapterSelectors ≠ [] := by simpa using hs
      simp [hs, hs']
  · intro h
    unfold convertRun
    rw [h]

/-! ## Claim C10 -/

theorem buildChapters_spec (parse : String → String → Option String)
    (baseUrl : String) :
    ∀ (links : List Anchor) (i : Nat) (seen : List String),
      (buildChapters parse baseUrl i seen links).Pairwise (fun a b => a.url ≠ b.url) ∧
      (∀ c ∈ buildChapters parse baseUrl i seen links,
        c.url ∉ seen ∧ ∃ a ∈ links, c.url = resolveUrl parse a.href baseUrl) := by
  intro links
  induction links with
  | nil => intro i seen; simp [buildChapters]
  | cons a rest ih =>
    intro i seen
    by_cases h1 : a.href = ""
    · simp only [buildChapters, if_pos h1]
      refine ⟨(ih (i + 1) seen).1, ?_⟩
      intro c hc
      obtain ⟨hs, w, hw, he⟩ := (ih (i + 1) seen).2 c hc
      exact ⟨hs, w, List.mem_cons_of_mem a hw, he⟩
    · by_cases h2 : resolveUrl parse a.href baseUrl ∈ seen
      · simp only [buildChapters, if_neg h1, if_pos h2]
        refine ⟨(ih (i + 1) seen).1, ?_⟩
        intro c hc
        obtain ⟨hs, w, hw, he⟩ := (ih (i + 1) seen).2 c hc
        exact ⟨hs, w, List.mem_cons_of_mem a hw, he⟩
      · simp only [buildChapters, if_neg h1, if_neg h2]
        constructor
        · refine List.Pairwise.cons ?_ (ih (i + 1) (resolveUrl parse a.href baseUrl :: seen)).1
          intro c hc
          have hs := ((ih (i + 1) (resolveUrl parse a.href baseUrl :: seen)).2 c hc).1
          intro he
          exact hs (by rw [← he]; exact List.mem_cons_self _ _)
        · intro c hc
          rcases List.mem_cons.mp hc with hc | hc
          · subst hc
            exact ⟨h2, a, List.mem_cons_self a rest, rfl⟩
          · obtain ⟨hs, w, hw, he⟩ :=
              (ih (i + 1) (resolveUrl parse a.href baseUrl :: seen)).2 c hc
            exact ⟨fun hm => hs (List.mem_cons_of_mem _ hm), w,
              List.mem_cons_of_mem a hw, he⟩

theorem orderedInsertJs_perm (le : α → α → Bool) (x : α) :
    ∀ l : List α, (orderedInsertJs le x l).Perm (x :: l) := by
  intro l
  induction l with
  | nil => simp [orderedInsertJs]
  | cons y ys ih =>
    simp only [orderedInsertJs]
    by_cases h : le x y
    · simp [h]
    · simp only [h]
      exact (ih.cons y).trans (List.Perm.swap x y ys)

theorem stableSortJs_perm (le : α → α → Bool) :
    ∀ l : List α, (stableSortJs le l).Perm l := by
  intro l
  induction l with
  | nil => simp [stableSortJs]
  | cons x xs ih =>
    simp only [stableSortJs]
    exact (orderedInsertJs_perm le x (stableSortJs le xs)).trans (ih.cons x)

/-- Claim C10: resolveUrl is total — the resolved absolute URL when the
pair parses, the raw href unchanged when it does not — and discovery
records and deduplicates whatever string resolveUrl returns: every
discovered chapter URL is the resolveUrl image of some discovered
anchor, and no two discovered chapters share that string. -/
theorem c10_resolve_total_dedup :
    ∀ (parse : String → String → Option String) (href baseUrl : String)
      (doc : StartDoc) (rules : SiteRules) (chs : List Chapter),
      (parse href baseUrl = none → resolveUrl parse href baseUrl = href) ∧
      (∀ u, parse href baseUrl = some u → resolveUrl parse href baseUrl = u) ∧
      (extractChapters parse doc baseUrl rules = .ok chs →
        chs.Pairwise (fun a b => a.url ≠ b.url) ∧
        ∀ c ∈ chs, ∃ a ∈ discoveredLinks doc rules,
          c.url = resolveUrl parse a.href baseUrl) := by
  intro parse href baseUrl doc rules chs
  refine ⟨?_, ?_, ?_⟩
  · intro h; simp [resolveUrl, h]
  · intro u h; simp [resolveUrl, h]
  · intro h
    unfold extractChapters at h
    by_cases hl : (discoveredLinks doc rules).isEmpty
    · simp [hl] at h
    · simp only [hl, Bool.false_eq_true, if_false, Except.ok.injEq] at h
      subst h
      have hperm := stableSortJs_perm chapterLe
        (buildChapters parse baseUrl 0 [] (discoveredLinks doc rules))
      have hspec := buildChapters_spec parse baseUrl (discoveredLinks doc rules) 0 []
      constructor
      · refine (hperm.pairwise_iff ?_).mpr hspec.1
        intro a b hab
        exact fun he => hab he.symm
      · intro c hc
        have : c ∈ buildChapters parse baseUrl 0 [] (discoveredLinks doc rules) :=
          hperm.mem_iff.mp hc
        exact (hspec.2 c this).2

/-! ## Claim C9 -/

theorem fetchLoop_attempts_le (outcome : Nat → Except String String) (ch : Chapter) :
    ∀ (fuel rc : Nat), (fetchLoop outcome ch rc fuel).attempts ≤ fuel := by
  intro fuel
  induction fuel with
  | zero => intro rc; simp [fetchLoop]
  | succ fuel ih =>
    intro rc
    simp only [fetchLoop]
    cases outcome rc with
    | ok c => simp
    | error msg =>
      by_cases h : rc + 1 ≥ maxRetries
      · simp [h]
      · simp only [h, if_false]
        exact Nat.succ_le_succ (ih (rc + 1))

theorem fetchLoop_delays (outcome : Nat → Except String String) (ch : Chapter) :
    ∀ (fuel rc : Nat),
      List.Chain' (· < ·) (fetchLoop outcome ch rc fuel).delays ∧
      ∀ d ∈ (fetchLoop outcome ch rc fuel).delays, 2000 * (rc + 1) ≤ d := by
  intro fuel
  induction fuel with
  | zero => intro rc; simp [fetchLoop]
  | succ fuel ih =>
    intro rc
    simp only [fetchLoop]
    cases outcome rc with
    | ok c => simp
    | error msg =>
      by_cases h : rc + 1 ≥ maxRetries
      · simp [h]
      · simp only [h, if_false]
        obtain ⟨hchain, hbound⟩ := ih (rc + 1)
        constructor
        · rw [List.chain'_cons']
          refine ⟨?_, hchain⟩
          intro b hb
          have hmem : b ∈ (fetchLoop outcome ch (rc + 1) fuel).delays :=
            List.mem_of_mem_head? hb
          have := hbound b hmem
          omega
        · intro d hd
          rcases List.mem_cons.mp hd with hd | hd
          · omega
          · have := hbound d hd
            omega

/-- Claim C9: a chapter is attempted at most three times with strictly
increasing delays between attempts; three failures settle the chapter at
status error carrying the last failure message after delays 2000 and
4000; and the batch loop settles every chapter from its own attempts
alone, so one chapter exhausting its retries never aborts the others. -/
theorem c9_retry_policy :
    ∀ (outcome : Nat → Except String String) (ch : Chapter)
      (outcomes : Nat → Nat → Except String String) (chs : List Chapter),
      (fetchChapterContent outcome ch).attempts ≤ maxRetries ∧
      List.Chain' (· < ·) (fetchChapterContent outcome ch).delays ∧
      (∀ m0 m1 m2, outcome 0 = .error m0 → outcome 1 = .error m1 →
        outcome 2 = .error m2 →
        (fetchChapterContent outcome ch).chapter.status = "error" ∧
        (fetchChapterContent outcome ch).chapter.error = some m2 ∧
        (fetchChapterContent outcome ch).attempts = 3 ∧
        (fetchChapterContent outcome ch).delays = [2000, 4000]) ∧
      (∀ i : Nat, (fetchAllChapters outcomes chs)[i]?
        = (chs[i]?).map (fun c => (fetchChapterContent (outcomes i) c).chapter)) := by
  intro outcome ch outcomes chs
  refine ⟨?_, ?_, ?_, ?_⟩
  · exact fetchLoop_attempts_le outcome ch maxRetries 0
  · exact (fetchLoop_delays outcome ch maxRetries 0).1
  · intro m0 m1 m2 h0 h1 h2
    have e : fetchChapterContent outcome ch = fetchLoop outcome ch 0 (1 + 1 + 1) := rfl
    rw [e]
    simp only [fetchLoop, h0, h1, h2, maxRetries]
    norm_num
  · intro i
    unfold fetchAllChapters
    rw [mapWithIdx_getElem?]
    simp

/-! ## Claim C4 -/

/-- Claim C4 counterexample: on a start page whose anchors are titled
Chapter 2, chapter x, Chapter 1 (in that DOM order), discovery returns
them unmoved, although Chapter 2 and Chapter 1 both carry an integer
and the claim requires them in numeric order; the comparator never
compares the two numeric titles directly because the non-numeric title
sits between them, so the claimed ordering property fails. -/
theorem c4_counterexample :
    extractChapters noParse c4Doc "base" defaultRules = .ok c4Out ∧
    ¬ chapterOrderClaim c4Out := by
  constructor
  · rfl
  · unfold chapterOrderClaim
    decide

theorem chapterLe_numeric {a b : Chapter}
    (ha : (titleNumber a.title).isSome) (hb : (titleNumber b.title).isSome) :
    chapterLe a b = true ↔ titleKey a ≤ titleKey b := by
  obtain ⟨m, hm⟩ := Option.isSome_iff_exists.mp ha
  obtain ⟨n, hn⟩ := Option.isSome_iff_exists.mp hb
  simp only [chapterLe, chapterCompare, hm, hn, titleKey, Option.getD_some,
    decide_eq_true_eq]
  omega

/-- The ordering the amended claim C4 asserts of the sorted output:
numeric keys non-decreasing, ties in discovery order. -/
def sortedByKey (a b : Chapter) : Prop :=
  titleKey a < titleKey b ∨ (titleKey a = titleKey b ∧ a.index < b.index)

theorem sortedByKey_le {a b : Chapter} (h : sortedByKey a b) :
    titleKey a ≤ titleKey b := by
  rcases h with h | ⟨h, _⟩
  · exact Nat.le_of_lt h
  · exact Nat.le_of_eq h

theorem orderedInsertJs_numeric (x : Chapter)
    (hx : (titleNumber x.title).isSome) :
    ∀ l : List Chapter,
      (∀ c ∈ l, (titleNumber c.title).isSome) →
      (∀ c ∈ l, x.index < c.index) →
      l.Pairwise sortedByKey →
      (orderedInsertJs chapterLe x l).Pairwise sortedByKey := by
  intro l
  induction l with
  | nil => intro _ _ _; exact List.pairwise_singleton _ x
  | cons y ys ih =>
    intro hnum hidx hp
    have hy : (titleNumber y.title).isSome := hnum y (List.mem_cons_self y ys)
    simp only [orderedInsertJs]
    by_cases hle : chapterLe x y = true
    · simp only [hle, if_true]
      have hxy : titleKey x ≤ titleKey y := (chapterLe_numeric hx hy).mp hle
      refine List.Pairwise.cons ?_ hp
      intro z hz
      have hxz : titleKey x ≤ titleKey z := by
        rcases List.mem_cons.mp hz with hz | hz
        · subst hz; exact hxy
        · have := List.rel_of_pairwise_cons hp hz
          exact le_trans hxy (sortedByKey_le this)
      rcases Nat.lt_or_ge (titleKey x) (titleKey z) with h | h
      · exact Or.inl h
      · exact Or.inr ⟨Nat.le_antisymm hxz h, hidx z hz⟩
    · simp only [hle, if_false]
      have hyx : titleKey y < titleKey x := by
        have := (chapterLe_numeric hx hy).not.mp (by simp [hle])
        omega
      refine List.Pairwise.cons ?_ ?_
      · intro z hz
        have hz' := (orderedInsertJs_perm chapterLe x ys).mem_iff.mp hz
        rcases List.mem_cons.mp hz' with hz' | hz'
        · subst hz'; exact Or.inl hyx
        · exact List.rel_of_pairwise_cons hp hz'
      · exact ih (fun c hc => hnum c (List.mem_cons_of_mem y hc))
          (fun c hc => hidx c (List.mem_cons_of_mem y hc)) hp.tail

theorem stableSortJs_numeric :
    ∀ l : List Chapter,
      (∀ c ∈ l, (titleNumber c.title).isSome) →
      l.Pairwise (fun a b => a.index < b.index) →
      (stableSortJs chapterLe l).Pairwise sortedByKey := by
  intro l
  induction l with
  | nil => intro _ _; exact List.Pairwise.nil
  | cons x xs ih =>
    intro hnum hp
    simp only [stableSortJs]
    refine orderedInsertJs_numeric x (hnum x (List.mem_cons_self x xs))
      (stableSortJs chapterLe xs) ?_ ?_ ?_
    · intro c hc
      exact hnum c (List.mem_cons_of_mem x
        ((stableSortJs_perm chapterLe xs).mem_iff.mp hc))
    · intro c hc
      exact List.rel_of_pairwise_cons hp
        ((stableSortJs_perm chapterLe xs).mem_iff.mp hc)
    · exact ih (fun c hc => hnum c (List.mem_cons_of_mem x hc)) hp.tail

theorem buildChapters_index (parse : String → String → Option String)
    (baseUrl : String) :
    ∀ (links : List Anchor) (i : Nat) (seen : List String),
      (buildChapters parse baseUrl i seen links).Pairwise
        (fun a b => a.index < b.index) ∧
      (∀ c ∈ buildChapters parse baseUrl i seen links, i ≤ c.index) := by
  intro links
  induction links with
  | nil => intro i seen; simp [buildChapters]
  | cons a rest ih =>
    intro i seen
    by_cases h1 : a.href = ""
    · simp only [buildChapters, if_pos h1]
      exact ⟨(ih (i + 1) seen).1,
        fun c hc => Nat.le_of_succ_le ((ih (i + 1) seen).2 c hc)⟩
    · by_cases h2 : resolveUrl parse a.href baseUrl ∈ seen
      · simp only [buildChapters, if_neg h1, if_pos h2]
        exact ⟨(ih (i + 1) seen).1,
          fun c hc => Nat.le_of_succ_le ((ih (i + 1) seen).2 c hc)⟩
      · simp only [buildChapters, if_neg h1, if_neg h2]
        constructor
        · refine List.Pairwise.cons ?_
            (ih (i + 1) (resolveUrl parse a.href baseUrl :: seen)).1
          intro c hc
          exact Nat.lt_of_succ_le
            ((ih (i + 1) (resolveUrl parse a.href baseUrl :: seen)).2 c hc)
        · intro c hc
          rcases List.mem_cons.mp hc with hc | hc
          · subst hc; exact Nat.le_refl i
          · exact Nat.le_of_succ_le
              ((ih (i + 1) (resolveUrl parse a.href baseUrl :: seen)).2 c hc)

/-- Claim C4 amended: the discovery ordering is a stable sort by the
embedded integer only when every discovered title contains one.  Under
that hypothesis the output is a permutation of the discovery list whose
numeric keys are non-decreasing and whose equal keys keep discovery
order; with mixed titles the comparator is inconsistent and a numeric
pair separated by a non-numeric title can stay unsorted, as the
counterexample shows. -/
theorem c4_sort_amended :
    ∀ (parse : String → String → Option String) (doc : StartDoc)
      (baseUrl : String) (rules : SiteRules) (chs : List Chapter),
      extractChapters parse doc baseUrl rules = .ok chs →
      (∀ c ∈ chs, (titleNumber c.title).isSome) →
      chs.Perm (buildChapters parse baseUrl 0 [] (discoveredLinks doc rules)) ∧
      chs.Pairwise sortedByKey := by
  intro parse doc baseUrl rules chs h hnum
  unfold extractChapters at h
  by_cases hl : (discoveredLinks doc rules).isEmpty
  · simp [hl] at h
  · simp only [hl, Bool.false_eq_true, if_false, Except.ok.injEq] at h
    subst h
    have hperm := stableSortJs_perm chapterLe
      (buildChapters parse baseUrl 0 [] (discoveredLinks doc rules))
    refine ⟨hperm, ?_⟩
    apply stableSortJs_numeric
    · intro c hc
      exact hnum c (hperm.mem_iff.mpr hc)
    · exact (buildChapters_index parse baseUrl (discoveredLinks doc rules) 0 []).1

/-- Witness for the amended claim C4 at the scenario input: the anchors
Chapter 2, Chapter 1, Chapter 10 in DOM order come out in numeric order
1, 2, 10. -/
theorem c4_sort_amended_witness :
    extractChapters noParse c4ScenarioDoc "base" defaultRules = .ok c4ScenSorted ∧
    (∀ c ∈ c4ScenSorted, (titleNumber c.title).isSome) ∧
    (c4ScenSorted.Perm
      (buildChapters noParse "base" 0 [] (discoveredLinks c4ScenarioDoc defaultRules)) ∧
     c4ScenSorted.Pairwise sortedByKey) ∧
    c4ScenSorted.map Chapter.title = ["Chapter 1", "Chapter 2", "Chapter 10"] := by
  refine ⟨rfl, by decide, ?_, by rfl⟩
  exact c4_sort_amended noParse c4ScenarioDoc "base" defaultRules c4ScenSorted
    rfl (by decide)

/-! ## Claim C2 -/

/-- Claim C2 counterexample: a section and a div that both qualify and
tie on trimmed text length; document order has the section first, so the
claim requires the section, but the code scans div elements before
section elements and keeps the div. -/
theorem c2_counterexample :
    findLargestTextBlock c2Doc = some c2Div ∧
    claimSelectBest c2Doc = some c2Sec ∧
    isLikelyContent c2Sec = true ∧
    isLikelyContent c2Div = true ∧
    c2Sec.textLen = c2Div.textLen ∧
    c2Div ≠ c2Sec := by
  exact ⟨rfl, rfl, rfl, rfl, rfl, by decide⟩

theorem isLikely_textLen_pos {e : PageElem} (h : isLikelyContent e = true) :
    0 < e.textLen := by
  simp only [isLikelyContent, Bool.and_eq_true, decide_eq_true_eq] at h
  omega

theorem bestFold (l : List PageElem) :
    ∀ acc : Option PageElem × Nat,
      (acc = (none, 0) ∨ ∃ b, acc = (some b, b.textLen) ∧ 0 < b.textLen) →
      (l.foldl bestStep acc).1 = (l.filter isLikelyContent).foldl pickBest acc.1 := by
  induction l with
  | nil => intro acc _; rfl
  | cons e rest ih =>
    intro acc hinv
    by_cases hlik : isLikelyContent e = true
    · have hpos : 0 < e.textLen := isLikely_textLen_pos hlik
      rcases hinv with hn | ⟨b, hb, hbpos⟩
      · subst hn
        have hstep : bestStep (none, 0) e = (some e, e.textLen) := by
          simp [bestStep, hlik, hpos]
        simp only [List.foldl_cons, hstep, List.filter_cons, hlik, if_true]
        have := ih (some e, e.textLen) (Or.inr ⟨e, rfl, hpos⟩)
        simpa [pickBest] using this
      · subst hb
        by_cases hlt : b.textLen < e.textLen
        · have hstep : bestStep (some b, b.textLen) e = (some e, e.textLen) := by
            simp [bestStep, hlik, hlt]
          simp only [List.foldl_cons, hstep, List.filter_cons, hlik, if_true]
          have := ih (some e, e.textLen) (Or.inr ⟨e, rfl, hpos⟩)
          simpa [pickBest, hlt] using this
        · have hstep : bestStep (some b, b.textLen) e = (some b, b.textLen) := by
            simp [bestStep, hlik, hlt]
          simp only [List.foldl_cons, hstep, List.filter_cons, hlik, if_true]
          have := ih (some b, b.textLen) (Or.inr ⟨b, rfl, hbpos⟩)
          simpa [pickBest, hlt] using this
    · have hstep : bestStep acc e = acc := by
        simp [bestStep, hlik]
      simp only [List.foldl_cons, hstep, List.filter_cons, hlik]
      exact ih acc hinv

/-- Claim C2 amended: the fallback heuristic selects, among the
candidates that pass the skip-pattern and density tests, the one with
the longest trimmed text, ties resolving to the first element of the
tag-major scan order the code visits (all article elements in document
order, then div, section, main) rather than plain document order; in
the claimed scenario the density-0.625 candidate of text length 500
beats the density-0.4 candidate even though the latter is longer. -/
theorem c2_fallback_amended :
    (∀ doc : List PageElem, findLargestTextBlock doc = scanSelectBest doc) ∧
    findLargestTextBlock c2ScenDoc = some c2ScenA ∧
    isLikelyContent c2ScenB = false ∧
    c2ScenA.textLen < c2ScenB.textLen := by
  refine ⟨?_, rfl, rfl, by decide⟩
  intro doc
  unfold findLargestTextBlock scanSelectBest
  exact bestFold (scanOrder doc) (none, 0) (Or.inl rfl)

/-! ## Claim C8: whitespace normal forms -/

theorem wsClean_cons {c : Char} {cs : List Char} (h : wsClean (c :: cs) = true) :
    wsClean cs = true := by
  simp only [wsClean, Bool.and_eq_true] at h
  exact h.2

theorem collapseWs_wsClean :
    ∀ l : List Char,
      wsClean (collapseWs l) = true ∧
      wsClean (afterWs l) = true ∧ headNotWs (afterWs l) = true := by
  intro l
  induction l with
  | nil => exact ⟨rfl, rfl, rfl⟩
  | cons c cs ih =>
    by_cases h : isWs c
    · refine ⟨?_, ?_, ?_⟩
      · simp only [collapseWs, h, if_true, wsClean]
        simp [ih.2.1, ih.2.2, isWs]
      · simp only [afterWs, h, if_true]
        exact ih.2.1
      · simp only [afterWs, h, if_true]
        exact ih.2.2
    · refine ⟨?_, ?_, ?_⟩
      · simp only [collapseWs, h, if_false, wsClean]
        simp [h, ih.1]
      · simp only [afterWs, h, if_false, wsClean]
        simp [h, ih.1]
      · simp only [afterWs, h, if_false, headNotWs]
        simp [h]

theorem wsClean_dropWhile :
    ∀ l : List Char, wsClean l = true → wsClean (l.dropWhile isWs) = true := by
  intro l
  induction l with
  | nil => intro _; rfl
  | cons c cs ih =>
    intro h
    by_cases hc : isWs c
    · rw [List.dropWhile_cons_of_pos hc]
      exact ih (wsClean_cons h)
    · rw [List.dropWhile_cons_of_neg hc]
      exact h

theorem headNotWs_dropWhile : ∀ l : List Char, headNotWs (l.dropWhile isWs) = true := by
  intro l
  induction l with
  | nil => rfl
  | cons c cs ih =>
    by_cases hc : isWs c
    · rw [List.dropWhile_cons_of_pos hc]
      exact ih
    · rw [List.dropWhile_cons_of_neg hc]
      simp [headNotWs, hc]

theorem trimEnd_cons (c : Char) (cs : List Char) :
    trimEnd (c :: cs)
      = if ((trimEnd cs).isEmpty && isWs c) = true then [] else c :: trimEnd cs := rfl

theorem wsClean_trimEnd :
    ∀ l : List Char, wsClean l = true → wsClean (trimEnd l) = true := by
  intro l
  induction l with
  | nil => intro _; rfl
  | cons c cs ih =>
    intro h
    have hcs : wsClean (trimEnd cs) = true := ih (wsClean_cons h)
    rw [trimEnd_cons]
    cases hcond : ((trimEnd cs).isEmpty && isWs c) with
    | true => simp [wsClean]
    | false =>
      simp only [Bool.false_eq_true, if_false, wsClean]
      by_cases hc : isWs c
      · have hne : (trimEnd cs).isEmpty = false := by
          cases he : (trimEnd cs).isEmpty
          · rfl
          · rw [he, hc] at hcond; cases hcond
        simp only [wsClean, hc, if_true, Bool.and_eq_true, decide_eq_true_eq] at h
        obtain ⟨⟨hsp, hhd⟩, _⟩ := h
        have hhd' : headNotWs (trimEnd cs) = true := by
          cases cs with
          | nil => simp [trimEnd] at hne
          | cons d ds =>
            have hd : ¬ isWs d := by simpa [headNotWs] using hhd
            rw [trimEnd_cons]
            cases hcond2 : ((trimEnd ds).isEmpty && isWs d) with
            | true =>
              simp only [Bool.and_eq_true] at hcond2
              exact absurd hcond2.2 hd
            | false => simp [headNotWs, hd]
        simp [hc, hsp, hhd', hcs]
      · simp [hc, hcs]

theorem lastNotWs_trimEnd : ∀ l : List Char, lastNotWs (trimEnd l) = true := by
  intro l
  induction l with
  | nil => rfl
  | cons c cs ih =>
    rw [trimEnd_cons]
    cases hcond : ((trimEnd cs).isEmpty && isWs c) with
    | true => simp [lastNotWs]
    | false =>
      simp only [Bool.false_eq_true, if_false]
      cases he : trimEnd cs with
      | nil =>
        have hc : isWs c = false := by
          cases hc : isWs c
          · rfl
          · rw [he, hc] at hcond; cases hcond
        simp [lastNotWs, hc]
      | cons d ds =>
        have ih' : lastNotWs (d :: ds) = true := he ▸ ih
        exact ih'


theorem headNotWs_trimEnd :
    ∀ l : List Char, headNotWs l = true → headNotWs (trimEnd l) = true := by
  intro l h
  cases l with
  | nil => rfl
  | cons c cs =>
    rw [trimEnd_cons]
    cases hcond : ((trimEnd cs).isEmpty && isWs c) with
    | true => rfl
    | false =>
      simp only [Bool.false_eq_true, if_false]
      simpa [headNotWs] using h

theorem dropWhile_eq_self_of_headNotWs :
    ∀ l : List Char, headNotWs l = true → l.dropWhile isWs = l := by
  intro l h
  cases l with
  | nil => rfl
  | cons c cs =>
    have hc : ¬ isWs c := by simpa [headNotWs] using h
    rw [List.dropWhile_cons_of_neg hc]

theorem trimEnd_eq_self :
    ∀ l : List Char, lastNotWs l = true → trimEnd l = l := by
  intro l
  induction l with
  | nil => intro _; rfl
  | cons c cs ih =>
    intro h
    cases cs with
    | nil =>
      have hc : isWs c = false := by simpa [lastNotWs] using h
      simp [trimEnd, hc]
    | cons d ds =>
      have h' : lastNotWs (d :: ds) = true := by simpa [lastNotWs] using h
      have he : trimEnd (d :: ds) = d :: ds := ih h'
      rw [trimEnd_cons, he]
      simp

theorem collapseWs_eq_self :
    ∀ l : List Char,
      (wsClean l = true → collapseWs l = l) ∧
      (wsClean l = true → headNotWs l = true → afterWs l = l) := by
  intro l
  induction l with
  | nil => exact ⟨fun _ => rfl, fun _ _ => rfl⟩
  | cons c cs ih =>
    constructor
    · intro h
      by_cases hc : isWs c
      · simp only [wsClean, hc, if_true, Bool.and_eq_true, decide_eq_true_eq] at h
        obtain ⟨⟨hsp, hhd⟩, h2⟩ := h
        simp only [collapseWs, hc, if_true]
        rw [ih.2 h2 hhd, hsp]
      · have hc' : isWs c = false := by simpa using hc
        simp only [collapseWs, hc', Bool.false_eq_true, if_false]
        rw [ih.1 (wsClean_cons h)]
    · intro h hh
      have hc' : isWs c = false := by simpa [headNotWs] using hh
      simp only [afterWs, hc', Bool.false_eq_true, if_false]
      rw [ih.1 (wsClean_cons h)]

theorem collapseTrim_props :
    ∀ l : List Char,
      wsClean (collapseTrim l) = true ∧
      headNotWs (collapseTrim l) = true ∧
      lastNotWs (collapseTrim l) = true := by
  intro l
  refine ⟨?_, ?_, ?_⟩
  · exact wsClean_trimEnd _ (wsClean_dropWhile _ (collapseWs_wsClean l).1)
  · exact headNotWs_trimEnd _ (headNotWs_dropWhile _)
  · exact lastNotWs_trimEnd _

theorem collapseTrim_of_normal :
    ∀ l : List Char, wsClean l = true → headNotWs l = true → lastNotWs l = true →
      collapseTrim l = l := by
  intro l hws hhd hlast
  show trimEnd ((collapseWs l).dropWhile isWs) = l
  rw [(collapseWs_eq_self l).1 hws, dropWhile_eq_self_of_headNotWs l hhd,
    trimEnd_eq_self l hlast]

theorem collapseTrim_idem (l : List Char) :
    collapseTrim (collapseTrim l) = collapseTrim l := by
  obtain ⟨h1, h2, h3⟩ := collapseTrim_props l
  exact collapseTrim_of_normal _ h1 h2 h3

theorem jsTrim_of_normal :
    ∀ l : List Char, headNotWs l = true → lastNotWs l = true → jsTrim l = l := by
  intro l hhd hlast
  show trimEnd (l.dropWhile isWs) = l
  rw [dropWhile_eq_self_of_headNotWs l hhd, trimEnd_eq_self l hlast]

/-! ## Claim C8: fragment-level lemmas -/

theorem trimEnd_nil_iff : ∀ l : List Char, trimEnd l = [] ↔ ∀ c ∈ l, isWs c = true := by
  intro l
  induction l with
  | nil => simp [trimEnd]
  | cons c cs ih =>
    rw [trimEnd_cons]
    cases hcond : ((trimEnd cs).isEmpty && isWs c) with
    | true =>
      simp only [Bool.and_eq_true, List.isEmpty_iff] at hcond
      simp only [if_true, true_iff]
      intro x hx
      rcases List.mem_cons.mp hx with hx | hx
      · subst hx; exact hcond.2
      · exact (ih.mp hcond.1) x hx
    | false =>
      simp only [Bool.false_eq_true, if_false]
      constructor
      · intro hx; cases hx
      · intro hall
        exfalso
        have h1 : trimEnd cs = [] := ih.mpr (fun x hx => hall x (List.mem_cons_of_mem c hx))
        have h2 : isWs c = true := hall c (List.mem_cons_self c cs)
        rw [h1, h2] at hcond
        cases hcond

theorem allWs_dropWhile_iff :
    ∀ l : List Char,
      (∀ c ∈ l.dropWhile isWs, isWs c = true) ↔ (∀ c ∈ l, isWs c = true) := by
  intro l
  induction l with
  | nil => simp
  | cons c cs ih =>
    by_cases hc : isWs c
    · rw [List.dropWhile_cons_of_pos hc]
      constructor
      · intro h x hx
        rcases List.mem_cons.mp hx with hx | hx
        · subst hx; exact hc
        · exact ih.mp h x hx
      · intro h x hx
        exact ih.mpr (fun y hy => h y (List.mem_cons_of_mem c hy)) x hx
    · rw [List.dropWhile_cons_of_neg hc]

theorem jsTrim_isEmpty_iff :
    ∀ l : List Char, (jsTrim l).isEmpty = true ↔ hasNonWs l = false := by
  intro l
  rw [List.isEmpty_iff]
  show trimEnd (l.dropWhile isWs) = [] ↔ _
  rw [trimEnd_nil_iff, allWs_dropWhile_iff]
  simp [hasNonWs, List.any_eq_false]

theorem hasNonWs_append (a b : List Char) :
    hasNonWs (a ++ b) = (hasNonWs a || hasNonWs b) := by
  simp [hasNonWs, List.any_append]

theorem noDenied_rmUnwanted : ∀ d : Dom, noDenied (rmUnwanted d) = true := by
  intro d
  induction d with
  | nil => rfl
  | elemN t c i s ch sb ihch ihsb =>
    simp only [rmUnwanted]
    by_cases h : isUnwanted t c i
    · simp [h, ihsb]
    · simp only [h, Bool.false_eq_true, if_false, noDenied]
      have h' : isUnwanted t c i = false := by simpa using h
      simp [h', ihch, ihsb]
  | textN s sb ihsb =>
    simpa [rmUnwanted, noDenied] using ihsb

theorem textsNormal_cleanTexts : ∀ d : Dom, textsNormal (cleanTexts d) = true := by
  intro d
  induction d with
  | nil => rfl
  | elemN t c i s ch sb ihch ihsb => simp [cleanTexts, textsNormal, ihch, ihsb]
  | textN s sb ihsb =>
    simp only [cleanTexts, textsNormal, Bool.and_eq_true]
    refine ⟨?_, ihsb⟩
    rw [show ((collapseTrim s.toList).asString).toList = collapseTrim s.toList from rfl]
    simp [collapseTrim_idem]

theorem topTextsEmpty_wrapTopText : ∀ d : Dom, topTextsEmpty (wrapTopText d) = true := by
  intro d
  induction d with
  | nil => rfl
  | elemN t c i s ch sb ihch ihsb => simp [wrapTopText, topTextsEmpty, ihsb]
  | textN s sb ihsb =>
    simp only [wrapTopText]
    by_cases h : (jsTrim s.toList).isEmpty = true
    · rw [if_pos h]
      have h' : jsTrim s.data = [] := by simpa using h
      simp [topTextsEmpty, h', ihsb]
    · rw [if_neg h]
      simp [topTextsEmpty, ihsb]

theorem textCon_removeEmpty :
    ∀ d : Dom, hasNonWs (textContentDom d) = true →
      hasNonWs (textContentDom (removeEmpty d)) = true := by
  intro d
  induction d with
  | nil => intro h; exact h
  | elemN t c i s ch sb ihch ihsb =>
    intro h
    simp only [textContentDom, hasNonWs_append, Bool.or_eq_true] at h
    simp only [removeEmpty]
    by_cases hcond : ((jsTrim (textContentDom ch)).isEmpty && !hasTagIn ["img"] ch)
    · have hempty : (jsTrim (textContentDom ch)).isEmpty = true :=
        (Bool.and_eq_true _ _ ▸ hcond).1
      have hnon : hasNonWs (textContentDom ch) = false := (jsTrim_isEmpty_iff _).mp hempty
      rcases h with h | h
      · rw [hnon] at h; cases h
      · simp [hcond, ihsb h]
    · simp only [hcond, Bool.false_eq_true, if_false, textContentDom,
        hasNonWs_append, Bool.or_eq_true]
      rcases h with h | h
      · exact Or.inl (ihch h)
      · exact Or.inr (ihsb h)
  | textN s sb ihsb =>
    intro h
    simp only [textContentDom, hasNonWs_append, Bool.or_eq_true] at h
    simp only [removeEmpty, textContentDom, hasNonWs_append, Bool.or_eq_true]
    rcases h with h | h
    · exact Or.inl h
    · exact Or.inr (ihsb h)

theorem hasTagIn_removeEmpty :
    ∀ (tags : List String) (d : Dom),
      hasTagIn tags d = false → hasTagIn tags (removeEmpty d) = false := by
  intro tags d
  induction d with
  | nil => intro h; exact h
  | elemN t c i s ch sb ihch ihsb =>
    intro h
    simp only [hasTagIn, Bool.or_eq_false_iff] at h
    obtain ⟨⟨ht, hch⟩, hsb⟩ := h
    simp only [removeEmpty]
    by_cases hcond : ((jsTrim (textContentDom ch)).isEmpty && !hasTagIn ["img"] ch)
    · simp [hcond, ihsb hsb]
    · have ht' : t ∉ tags := by simpa using ht
      simp [hcond, hasTagIn, ht', ihch hch, ihsb hsb]
  | textN s sb ihsb =>
    intro h
    simp only [hasTagIn] at h
    simpa [removeEmpty, hasTagIn] using ihsb h

theorem elemsNonempty_removeEmpty :
    ∀ d : Dom, hasTagIn ["img"] d = false → elemsNonempty (removeEmpty d) = true := by
  intro d
  induction d with
  | nil => intro _; rfl
  | elemN t c i s ch sb ihch ihsb =>
    intro h
    simp only [hasTagIn, Bool.or_eq_false_iff] at h
    obtain ⟨⟨ht, hch⟩, hsb⟩ := h
    simp only [removeEmpty]
    by_cases hcond : ((jsTrim (textContentDom ch)).isEmpty && !hasTagIn ["img"] ch)
    · simp [hcond, ihsb hsb]
    · simp only [hcond, Bool.false_eq_true, if_false, elemsNonempty, Bool.and_eq_true]
      have hnotempty : (jsTrim (textContentDom ch)).isEmpty = false := by
        cases he : (jsTrim (textContentDom ch)).isEmpty
        · rfl
        · exfalso; apply hcond
          rw [he, hch]
          rfl
      have hnon : hasNonWs (textContentDom ch) = true := by
        cases hn : hasNonWs (textContentDom ch)
        · exfalso
          have := (jsTrim_isEmpty_iff (textContentDom ch)).mpr hn
          rw [this] at hnotempty; cases hnotempty
        · rfl
      have h1 : hasNonWs (textContentDom (removeEmpty ch)) = true :=
        textCon_removeEmpty ch hnon
      have h2 : (jsTrim (textContentDom (removeEmpty ch))).isEmpty = false := by
        cases he : (jsTrim (textContentDom (removeEmpty ch))).isEmpty
        · rfl
        · have := (jsTrim_isEmpty_iff _).mp he
          rw [this] at h1; cases h1
      refine ⟨⟨?_, ihch hch⟩, ihsb hsb⟩
      simp [h2]
  | textN s sb ihsb =>
    intro h
    simp only [hasTagIn] at h
    simpa [removeEmpty, elemsNonempty] using ihsb h

theorem hasTagIn_cleanTexts :
    ∀ (tags : List String) (d : Dom), hasTagIn tags (cleanTexts d) = hasTagIn tags d := by
  intro tags d
  induction d with
  | nil => rfl
  | elemN t c i s ch sb ihch ihsb => simp [cleanTexts, hasTagIn, ihch, ihsb]
  | textN s sb ihsb => simp [cleanTexts, hasTagIn, ihsb]

theorem hasTagIn_rmUnwanted :
    ∀ (tags : List String) (d : Dom),
      hasTagIn tags d = false → hasTagIn tags (rmUnwanted d) = false := by
  intro tags d
  induction d with
  | nil => intro h; exact h
  | elemN t c i s ch sb ihch ihsb =>
    intro h
    simp only [hasTagIn, Bool.or_eq_false_iff] at h
    obtain ⟨⟨ht, hch⟩, hsb⟩ := h
    have ht' : t ∉ tags := by simpa using ht
    simp only [rmUnwanted]
    by_cases hu : isUnwanted t c i
    · simp [hu, ihsb hsb]
    · simp [hu, hasTagIn, ht', ihch hch, ihsb hsb]
  | textN s sb ihsb =>
    intro h
    simp only [hasTagIn] at h
    simpa [rmUnwanted, hasTagIn] using ihsb h

theorem hasTagIn_resolveImgs :
    ∀ (tags : List String) (p : String → String → Option String) (b : String) (d : Dom),
      hasTagIn tags d = false → hasTagIn tags (resolveImgs p b d) = false := by
  intro tags p b d
  induction d with
  | nil => intro h; exact h
  | elemN t c i s ch sb ihch ihsb =>
    intro h
    simp only [hasTagIn, Bool.or_eq_false_iff] at h
    obtain ⟨⟨ht, hch⟩, hsb⟩ := h
    have ht' : t ∉ tags := by simpa using ht
    simp only [resolveImgs]
    by_cases himg : t = "img"
    · subst himg
      by_cases hs : s = ""
      · simp [hs, hasTagIn, ht', ihch hch, ihsb hsb]
      · simp only [hs, if_neg, if_true]
        cases parse_eq : p s b with
        | some u => simp [hasTagIn, ht', ihch hch, ihsb hsb]
        | none => simp [ihsb hsb]
    · simp [himg, hasTagIn, ht', ihch hch, ihsb hsb]
  | textN s sb ihsb =>
    intro h
    simp only [hasTagIn] at h
    simpa [resolveImgs, hasTagIn] using ihsb h

theorem hasTagIn_divToP :
    ∀ (tags : List String) (d : Dom), tags.contains "p" = false →
      hasTagIn tags d = false → hasTagIn tags (divToP d) = false := by
  intro tags d hp
  induction d with
  | nil => intro h; exact h
  | elemN t c i s ch sb ihch ihsb =>
    intro h
    simp only [hasTagIn, Bool.or_eq_false_iff] at h
    obtain ⟨⟨ht, hch⟩, hsb⟩ := h
    have ht' : t ∉ tags := by simpa using ht
    have hp' : "p" ∉ tags := by simpa using hp
    simp only [divToP]
    by_cases hcond : ((t = "div" : Bool) && !hasTagIn blockingTags ch)
    · simp [hcond, hasTagIn, hp', ihch hch, ihsb hsb]
    · simp [hcond, hasTagIn, ht', ihch hch, ihsb hsb]
  | textN s sb ihsb =>
    intro h
    simp only [hasTagIn] at h
    simpa [divToP, hasTagIn] using ihsb h

theorem hasTagIn_wrapTopText :
    ∀ (tags : List String) (d : Dom), tags.contains "p" = false →
      hasTagIn tags d = false → hasTagIn tags (wrapTopText d) = false := by
  intro tags d hp
  induction d with
  | nil => intro h; exact h
  | elemN t c i s ch sb ihch ihsb =>
    intro h
    simp only [hasTagIn, Bool.or_eq_false_iff] at h
    obtain ⟨⟨ht, hch⟩, hsb⟩ := h
    have ht' : t ∉ tags := by simpa using ht
    simp [wrapTopText, hasTagIn, ht', hch, ihsb hsb]
  | textN s sb ihsb =>
    intro h
    simp only [hasTagIn] at h
    simp only [wrapTopText]
    by_cases he : (jsTrim s.toList).isEmpty = true
    · rw [if_pos he]
      simpa [hasTagIn] using ihsb h
    · rw [if_neg he]
      have hp' : "p" ∉ tags := by simpa using hp
      simp [hasTagIn, hp', ihsb h]

theorem noDenied_cleanTexts :
    ∀ d : Dom, noDenied (cleanTexts d) = noDenied d := by
  intro d
  induction d with
  | nil => rfl
  | elemN t c i s ch sb ihch ihsb => simp [cleanTexts, noDenied, ihch, ihsb]
  | textN s sb ihsb => simp [cleanTexts, noDenied, ihsb]

theorem noDenied_divToP :
    ∀ d : Dom, noDenied d = true → noDenied (divToP d) = true := by
  intro d
  induction d with
  | nil => intro h; exact h
  | elemN t c i s ch sb ihch ihsb =>
    intro h
    simp only [noDenied, Bool.and_eq_true] at h
    obtain ⟨⟨hu, hch⟩, hsb⟩ := h
    simp only [divToP]
    by_cases hcond : ((t = "div" : Bool) && !hasTagIn blockingTags ch)
    · rw [if_pos hcond]
      have hpu : isUnwanted "p" "" "" = false := by decide
      simp [noDenied, hpu, ihch hch, ihsb hsb]
    · rw [if_neg hcond]
      simp [noDenied, hu, ihch hch, ihsb hsb]
  | textN s sb ihsb =>
    intro h
    simp only [noDenied] at h
    simpa [divToP, noDenied] using ihsb h

theorem noDenied_wrapTopText :
    ∀ d : Dom, noDenied d = true → noDenied (wrapTopText d) = true := by
  intro d
  induction d with
  | nil => intro h; exact h
  | elemN t c i s ch sb ihch ihsb =>
    intro h
    simp only [noDenied, Bool.and_eq_true] at h
    obtain ⟨⟨hu, hch⟩, hsb⟩ := h
    simp [wrapTopText, noDenied, hu, hch, ihsb hsb]
  | textN s sb ihsb =>
    intro h
    simp only [noDenied] at h
    simp only [wrapTopText]
    by_cases he : (jsTrim s.toList).isEmpty = true
    · rw [if_pos he]
      simpa [noDenied] using ihsb h
    · rw [if_neg he]
      have hpu : isUnwanted "p" "" "" = false := by decide
      simp [noDenied, hpu, ihsb h]

theorem noDenied_removeEmpty :
    ∀ d : Dom, noDenied d = true → noDenied (removeEmpty d) = true := by
  intro d
  induction d with
  | nil => intro h; exact h
  | elemN t c i s ch sb ihch ihsb =>
    intro h
    simp only [noDenied, Bool.and_eq_true] at h
    obtain ⟨⟨hu, hch⟩, hsb⟩ := h
    simp only [removeEmpty]
    by_cases hcond : ((jsTrim (textContentDom ch)).isEmpty && !hasTagIn ["img"] ch)
    · simp [hcond, ihsb hsb]
    · simp [hcond, noDenied, hu, ihch hch, ihsb hsb]
  | textN s sb ihsb =>
    intro h
    simp only [noDenied] at h
    simpa [removeEmpty, noDenied] using ihsb h

theorem noDenied_resolveImgs :
    ∀ (p : String → String → Option String) (b : String) (d : Dom),
      noDenied d = true → noDenied (resolveImgs p b d) = true := by
  intro p b d
  induction d with
  | nil => intro h; exact h
  | elemN t c i s ch sb ihch ihsb =>
    intro h
    simp only [noDenied, Bool.and_eq_true] at h
    obtain ⟨⟨hu, hch⟩, hsb⟩ := h
    simp only [resolveImgs]
    by_cases himg : t = "img"
    · subst himg
      by_cases hs : s = ""
      · simp [hs, noDenied, hu, ihch hch, ihsb hsb]
      · simp only [hs, if_neg, if_true]
        cases parse_eq : p s b with
        | some u => simp [noDenied, hu, ihch hch, ihsb hsb]
        | none => simp [ihsb hsb]
    · simp [himg, noDenied, hu, ihch hch, ihsb hsb]
  | textN s sb ihsb =>
    intro h
    simp only [noDenied] at h
    simpa [resolveImgs, noDenied] using ihsb h

theorem textsNormal_divToP :
    ∀ d : Dom, textsNormal d = true → textsNormal (divToP d) = true := by
  intro d
  induction d with
  | nil => intro h; exact h
  | elemN t c i s ch sb ihch ihsb =>
    intro h
    simp only [textsNormal, Bool.and_eq_true] at h
    obtain ⟨hch, hsb⟩ := h
    simp only [divToP]
    by_cases hcond : ((t = "div" : Bool) && !hasTagIn blockingTags ch)
    · rw [if_pos hcond]
      simp [textsNormal, ihch hch, ihsb hsb]
    · rw [if_neg hcond]
      simp [textsNormal, ihch hch, ihsb hsb]
  | textN s sb ihsb =>
    intro h
    simp only [textsNormal, Bool.and_eq_true] at h
    obtain ⟨hs, hsb⟩ := h
    have hs' : collapseTrim s.data = s.data := by simpa using hs
    simp [divToP, textsNormal, hs', ihsb hsb]

theorem textsNormal_wrapTopText :
    ∀ d : Dom, textsNormal d = true → textsNormal (wrapTopText d) = true := by
  intro d
  induction d with
  | nil => intro h; exact h
  | elemN t c i s ch sb ihch ihsb =>
    intro h
    simp only [textsNormal, Bool.and_eq_true] at h
    obtain ⟨hch, hsb⟩ := h
    simp [wrapTopText, textsNormal, hch, ihsb hsb]
  | textN s sb ihsb =>
    intro h
    simp only [textsNormal, Bool.and_eq_true] at h
    obtain ⟨hs, hsb⟩ := h
    have hs' : collapseTrim s.data = s.data := by simpa using hs
    simp only [wrapTopText]
    by_cases he : (jsTrim s.toList).isEmpty = true
    · rw [if_pos he]
      simp [textsNormal, hs', ihsb hsb]
    · rw [if_neg he]
      have hp := collapseTrim_props s.data
      rw [hs'] at hp
      have hjs : jsTrim s.data = s.data := jsTrim_of_normal _ hp.2.1 hp.2.2
      have hnorm : collapseTrim ((jsTrim s.data).asString).data
          = ((jsTrim s.data).asString).data := by
        show collapseTrim (jsTrim s.data) = jsTrim s.data
        rw [hjs]
        exact hs'
      simp [textsNormal, hnorm, ihsb hsb]

theorem textsNormal_removeEmpty :
    ∀ d : Dom, textsNormal d = true → textsNormal (removeEmpty d) = true := by
  intro d
  induction d with
  | nil => intro h; exact h
  | elemN t c i s ch sb ihch ihsb =>
    intro h
    simp only [textsNormal, Bool.and_eq_true] at h
    obtain ⟨hch, hsb⟩ := h
    simp only [removeEmpty]
    by_cases hcond : ((jsTrim (textContentDom ch)).isEmpty && !hasTagIn ["img"] ch)
    · simp [hcond, ihsb hsb]
    · simp [hcond, textsNormal, ihch hch, ihsb hsb]
  | textN s sb ihsb =>
    intro h
    simp only [textsNormal, Bool.and_eq_true] at h
    obtain ⟨hs, hsb⟩ := h
    have hs' : collapseTrim s.data = s.data := by simpa using hs
    simp [removeEmpty, textsNormal, hs', ihsb hsb]

theorem textsNormal_resolveImgs :
    ∀ (p : String → String → Option String) (b : String) (d : Dom),
      textsNormal d = true → textsNormal (resolveImgs p b d) = true := by
  intro p b d
  induction d with
  | nil => intro h; exact h
  | elemN t c i s ch sb ihch ihsb =>
    intro h
    simp only [textsNormal, Bool.and_eq_true] at h
    obtain ⟨hch, hsb⟩ := h
    simp only [resolveImgs]
    by_cases himg : t = "img"
    · subst himg
      by_cases hs : s = ""
      · simp [hs, textsNormal, ihch hch, ihsb hsb]
      · simp only [hs, if_neg, if_true]
        cases parse_eq : p s b with
        | some u => simp [textsNormal, ihch hch, ihsb hsb]
        | none => simp [ihsb hsb]
    · simp [himg, textsNormal, ihch hch, ihsb hsb]
  | textN s sb ihsb =>
    intro h
    simp only [textsNormal, Bool.and_eq_true] at h
    obtain ⟨hs, hsb⟩ := h
    have hs' : collapseTrim s.data = s.data := by simpa using hs
    simp [resolveImgs, textsNormal, hs', ihsb hsb]

theorem topTextsEmpty_removeEmpty :
    ∀ d : Dom, topTextsEmpty d = true → topTextsEmpty (removeEmpty d) = true := by
  intro d
  induction d with
  | nil => intro h; exact h
  | elemN t c i s ch sb ihch ihsb =>
    intro h
    simp only [topTextsEmpty] at h
    simp only [removeEmpty]
    by_cases hcond : ((jsTrim (textContentDom ch)).isEmpty && !hasTagIn ["img"] ch)
    · simp [hcond, ihsb h]
    · simp [hcond, topTextsEmpty, ihsb h]
  | textN s sb ihsb =>
    intro h
    simp only [topTextsEmpty, Bool.and_eq_true] at h
    obtain ⟨hs, hsb⟩ := h
    have hs' : jsTrim s.data = [] := by simpa using hs
    simp [removeEmpty, topTextsEmpty, hs', ihsb hsb]

theorem topTextsEmpty_resolveImgs :
    ∀ (p : String → String → Option String) (b : String) (d : Dom),
      topTextsEmpty d = true → topTextsEmpty (resolveImgs p b d) = true := by
  intro p b d
  induction d with
  | nil => intro h; exact h
  | elemN t c i s ch sb ihch ihsb =>
    intro h
    simp only [topTextsEmpty] at h
    simp only [resolveImgs]
    by_cases himg : t = "img"
    · subst himg
      by_cases hs : s = ""
      · simp [hs, topTextsEmpty, ihsb h]
      · simp only [hs, if_neg, if_true]
        cases parse_eq : p s b with
        | some u => simp [topTextsEmpty, ihsb h]
        | none => simp [ihsb h]
    · simp [himg, topTextsEmpty, ihsb h]
  | textN s sb ihsb =>
    intro h
    simp only [topTextsEmpty, Bool.and_eq_true] at h
    obtain ⟨hs, hsb⟩ := h
    have hs' : jsTrim s.data = [] := by simpa using hs
    simp [resolveImgs, topTextsEmpty, hs', ihsb hsb]

theorem rmUnwanted_id : ∀ d : Dom, noDenied d = true → rmUnwanted d = d := by
  intro d
  induction d with
  | nil => intro _; rfl
  | elemN t c i s ch sb ihch ihsb =>
    intro h
    simp only [noDenied, Bool.and_eq_true] at h
    obtain ⟨⟨hu, hch⟩, hsb⟩ := h
    have hu' : isUnwanted t c i = false := by simpa using hu
    simp [rmUnwanted, hu', ihch hch, ihsb hsb]
  | textN s sb ihsb =>
    intro h
    simp only [noDenied] at h
    simp [rmUnwanted, ihsb h]

theorem cleanTexts_id : ∀ d : Dom, textsNormal d = true → cleanTexts d = d := by
  intro d
  induction d with
  | nil => intro _; rfl
  | elemN t c i s ch sb ihch ihsb =>
    intro h
    simp only [textsNormal, Bool.and_eq_true] at h
    obtain ⟨hch, hsb⟩ := h
    simp [cleanTexts, ihch hch, ihsb hsb]
  | textN s sb ihsb =>
    intro h
    simp only [textsNormal, Bool.and_eq_true] at h
    obtain ⟨hs, hsb⟩ := h
    have hs' : collapseTrim s.data = s.data := by simpa using hs
    simp only [cleanTexts, ihsb hsb]
    congr 1
    show (collapseTrim s.data).asString = s
    rw [hs']
    cases s
    rfl

theorem divToP_id : ∀ d : Dom, hasTagIn ["div"] d = false → divToP d = d := by
  intro d
  induction d with
  | nil => intro _; rfl
  | elemN t c i s ch sb ihch ihsb =>
    intro h
    simp only [hasTagIn, Bool.or_eq_false_iff] at h
    obtain ⟨⟨ht, hch⟩, hsb⟩ := h
    have ht' : t ≠ "div" := by
      intro he
      subst he
      simp at ht
    have hcond : ¬ (((t = "div" : Bool) && !hasTagIn blockingTags ch) = true) := by
      simp [ht']
    simp only [divToP]
    rw [if_neg hcond]
    rw [ihch hch, ihsb hsb]
  | textN s sb ihsb =>
    intro h
    simp only [hasTagIn] at h
    simp [divToP, ihsb h]

theorem wrapTopText_id : ∀ d : Dom, topTextsEmpty d = true → wrapTopText d = d := by
  intro d
  induction d with
  | nil => intro _; rfl
  | elemN t c i s ch sb ihch ihsb =>
    intro h
    simp only [topTextsEmpty] at h
    simp [wrapTopText, ihsb h]
  | textN s sb ihsb =>
    intro h
    simp only [topTextsEmpty, Bool.and_eq_true] at h
    obtain ⟨hs, hsb⟩ := h
    simp only [wrapTopText]
    rw [if_pos hs]
    rw [ihsb hsb]

theorem removeEmpty_id : ∀ d : Dom, elemsNonempty d = true → removeEmpty d = d := by
  intro d
  induction d with
  | nil => intro _; rfl
  | elemN t c i s ch sb ihch ihsb =>
    intro h
    simp only [elemsNonempty, Bool.and_eq_true] at h
    obtain ⟨⟨hne, hch⟩, hsb⟩ := h
    have hcond : ¬ (((jsTrim (textContentDom ch)).isEmpty && !hasTagIn ["img"] ch) = true) := by
      intro hx
      have h1 := (Bool.and_eq_true _ _ ▸ hx).1
      simp only [Bool.not_eq_true'] at hne
      rw [h1] at hne
      cases hne
    simp only [removeEmpty]
    rw [if_neg hcond]
    rw [ihch hch, ihsb hsb]
  | textN s sb ihsb =>
    intro h
    simp only [elemsNonempty] at h
    simp [removeEmpty, ihsb h]

theorem resolveImgs_id :
    ∀ (p : String → String → Option String) (b : String) (d : Dom),
      hasTagIn ["img"] d = false → resolveImgs p b d = d := by
  intro p b d
  induction d with
  | nil => intro _; rfl
  | elemN t c i s ch sb ihch ihsb =>
    intro h
    simp only [hasTagIn, Bool.or_eq_false_iff] at h
    obtain ⟨⟨ht, hch⟩, hsb⟩ := h
    have ht' : t ≠ "img" := by
      intro he
      subst he
      simp at ht
    simp only [resolveImgs]
    rw [if_neg ht']
    rw [ihch hch, ihsb hsb]
  | textN s sb ihsb =>
    intro h
    simp only [hasTagIn] at h
    simp [resolveImgs, ihsb h]

/-! ## Claim C8: main theorems -/

/-- Claim C8 counterexample: the Content Normalizer is not idempotent.
On div(div(), "hello") the first pass keeps the outer div (its inner div
blocks reclassification) and then deletes the empty inner div, so the
second pass reclassifies the now block-free outer div into a paragraph:
the second application changes the first output. -/
theorem c8_counterexample :
    normalizeDom noParse "" (normalizeDom noParse "" c8Frag)
      ≠ normalizeDom noParse "" c8Frag := by
  decide

/-- Claim C8 amended: the Content Normalizer is idempotent on fragments
containing no div and no img elements.  The restriction is forced: the
counterexample shows a second pass can reclassify a div whose blocking
descendant was removed by the first pass, and the empty-element pass can
strip an img (or an element emptied by dropping its img), feeding the
second pass a fragment with new empty elements. -/
theorem c8_normalizer_amended :
    ∀ (parse : String → String → Option String) (base : String) (d : Dom),
      noTag "div" d = true → noTag "img" d = true →
      normalizeDom parse base (normalizeDom parse base d)
        = normalizeDom parse base d := by
  intro parse base d hdiv himg
  have hdiv0 : hasTagIn ["div"] d = false := by
    simpa [noTag] using hdiv
  have himg0 : hasTagIn ["img"] d = false := by
    simpa [noTag] using himg
  have hpd : (["div"] : List String).contains "p" = false := by decide
  have hpi : (["img"] : List String).contains "p" = false := by decide
  -- names for the intermediate stages of the first pass
  set d1 := rmUnwanted d with hd1
  set d2 := cleanTexts d1 with hd2
  set d3 := divToP d2 with hd3
  set d4 := wrapTopText d3 with hd4
  set d5 := removeEmpty d4 with hd5
  -- div-freeness and img-freeness propagate stage by stage
  have hdiv1 : hasTagIn ["div"] d1 = false := hasTagIn_rmUnwanted _ d hdiv0
  have himg1 : hasTagIn ["img"] d1 = false := hasTagIn_rmUnwanted _ d himg0
  have hdiv2 : hasTagIn ["div"] d2 = false := by
    rw [hd2, hasTagIn_cleanTexts]; exact hdiv1
  have himg2 : hasTagIn ["img"] d2 = false := by
    rw [hd2, hasTagIn_cleanTexts]; exact himg1
  have hdiv3 : hasTagIn ["div"] d3 = false := hasTagIn_divToP _ d2 hpd hdiv2
  have himg3 : hasTagIn ["img"] d3 = false := hasTagIn_divToP _ d2 hpi himg2
  have hdiv4 : hasTagIn ["div"] d4 = false := hasTagIn_wrapTopText _ d3 hpd hdiv3
  have himg4 : hasTagIn ["img"] d4 = false := hasTagIn_wrapTopText _ d3 hpi himg3
  have hdiv5 : hasTagIn ["div"] d5 = false := hasTagIn_removeEmpty _ d4 hdiv4
  have himg5 : hasTagIn ["img"] d5 = false := hasTagIn_removeEmpty _ d4 himg4
  -- with no img the final resolution step is the identity
  have hfirst : normalizeDom parse base d = d5 := by
    show resolveImgs parse base d5 = d5
    exact resolveImgs_id parse base d5 himg5
  rw [hfirst]
  -- normal-form facts about the first-pass output
  have hden1 : noDenied d1 = true := noDenied_rmUnwanted d
  have hden2 : noDenied d2 = true := by
    rw [hd2, noDenied_cleanTexts]; exact hden1
  have hden3 : noDenied d3 = true := noDenied_divToP d2 hden2
  have hden4 : noDenied d4 = true := noDenied_wrapTopText d3 hden3
  have hden5 : noDenied d5 = true := noDenied_removeEmpty d4 hden4
  have htex2 : textsNormal d2 = true := textsNormal_cleanTexts d1
  have htex3 : textsNormal d3 = true := textsNormal_divToP d2 htex2
  have htex4 : textsNormal d4 = true := textsNormal_wrapTopText d3 htex3
  have htex5 : textsNormal d5 = true := textsNormal_removeEmpty d4 htex4
  have htop4 : topTextsEmpty d4 = true := topTextsEmpty_wrapTopText d3
  have htop5 : topTextsEmpty d5 = true := topTextsEmpty_removeEmpty d4 htop4
  have hne5 : elemsNonempty d5 = true := elemsNonempty_removeEmpty d4 himg4
  -- the second pass is the identity, stage by stage
  show resolveImgs parse base
    (removeEmpty (wrapTopText (divToP (cleanTexts (rmUnwanted d5))))) = d5
  rw [rmUnwanted_id d5 hden5, cleanTexts_id d5 htex5, divToP_id d5 hdiv5,
    wrapTopText_id d5 htop5, removeEmpty_id d5 hne5, resolveImgs_id parse base d5 himg5]

/-- Witness for the amended claim C8 at a concrete div-free, img-free
fragment. -/
theorem c8_normalizer_amended_witness :
    (noTag "div" c8CleanFrag = true ∧ noTag "img" c8CleanFrag = true) ∧
    normalizeDom noParse "" (normalizeDom noParse "" c8CleanFrag)
      = normalizeDom noParse "" c8CleanFrag :=
  ⟨⟨by decide, by decide⟩,
    c8_normalizer_amended noParse "" c8CleanFrag (by decide) (by decide)⟩

end WebToEpub
